import Mathlib

/-
Verification of the CrossWire KJV OSIS importer (scripts/import.ts).

The definitions below are a shallow embedding of the importer's pure core:
the gematria calculator, the Strong's-number reference extractor, the
SAX-event segmentation state machine of parseOsis, the colophon post-pass,
and the per-verse record assembly of saveVerse (including the shape of the
JSON it serializes).  Strings are modelled by Lean strings; JS objects used
as string-keyed records are modelled by association lists in insertion
order; JS null/undefined distinctions are modelled with Option at the spots
where they are observable.
-/

namespace KJV

/-- Gematria record, mirroring the fixed-key `Record<string, number>` literal
`{ standard: 0, ordinal: 0, reduced: 0 }` built by `computeGematria` in
scripts/import.ts (no key is ever added or removed by the loop). -/
structure Gematria where
  standard : Nat
  ordinal : Nat
  reduced : Nat
deriving DecidableEq

/-- Per-character step of the `for (const char of text.toUpperCase())` loop of
`computeGematria`: characters with code 65..90 (A-Z) contribute `code - 64`
to `standard` and `ordinal`; the JS expression `val % 9 || 9` contributes 9
when `val % 9` is 0 (JS falsiness) and `val % 9` otherwise. -/
def gemStep (g : Gematria) (c : Char) : Gematria :=
  let code := c.toNat
  if 65 ≤ code ∧ code ≤ 90 then
    let val := code - 64
    { standard := g.standard + val
      ordinal := g.ordinal + val
      reduced := g.reduced + (if val % 9 = 0 then 9 else val % 9) }
  else g

/-- Left-to-right accumulation of `gemStep`, mirroring the source loop. -/
def computeGematriaAux (g : Gematria) : List Char → Gematria
  | [] => g
  | c :: cs => computeGematriaAux (gemStep g c) cs

/-- `computeGematria` from scripts/import.ts.  JS `toUpperCase` is modelled by
`Char.toUpper` per character (the KJV source text is ASCII, where the two
agree). -/
def computeGematria (text : String) : Gematria :=
  computeGematriaAux { standard := 0, ordinal := 0, reduced := 0 }
    (text.data.map Char.toUpper)

/-- Spec-side value of one (already uppercased) character: its 1-based
alphabet position for A-Z, and 0 for every other character. -/
def letterVal (c : Char) : Nat :=
  if 65 ≤ c.toNat ∧ c.toNat ≤ 90 then c.toNat - 64 else 0

/-- Spec-side sum of 1-based alphabet positions over a character list. -/
def alphaSum (cs : List Char) : Nat := (cs.map letterVal).sum

/-- Spec-side reduced sum: each A-Z letter contributes
`((value - 1) mod 9) + 1` (digital-root reduction sending 9, 18, 27 to 9),
non-letters contribute nothing. -/
def reducedSum (cs : List Char) : Nat :=
  (cs.map (fun c => if letterVal c = 0 then 0 else (letterVal c - 1) % 9 + 1)).sum

/-- JS character class `[HGhg]` of STRONGS_RE in scripts/import.ts. -/
def isHG (c : Char) : Bool := c = 'H' ∨ c = 'G' ∨ c = 'h' ∨ c = 'g'

/-- Value of a run of decimal digits, as computed by `parseInt(digits, 10)`. -/
def digitsVal (ds : List Char) : Nat := ds.foldl (fun a c => 10 * a + (c.toNat - 48)) 0

/-- Match of the tail `[HGhg]?\d{3,5}` of STRONGS_RE at the head of the
input: an optional system letter followed by a greedy run of 3 to 5 digits.
Returns the captured token and the rest of the input.  When the optional
letter is present but fewer than 3 digits follow, regex backtracking cannot
help (the letter itself is not a digit), so the whole attempt fails. -/
def matchBody : List Char → Option (List Char × List Char)
  | [] => none
  | c :: cs =>
    if isHG c then
      let run := cs.takeWhile Char.isDigit
      let d := min run.length 5
      if 3 ≤ d then some (c :: run.take d, cs.drop d) else none
    else
      let run := (c :: cs).takeWhile Char.isDigit
      let d := min run.length 5
      if 3 ≤ d then some (run.take d, (c :: cs).drop d) else none

/-- Optional marker `(?:strongs?:)?` of STRONGS_RE: greedily consume a
literal "strongs:" or "strong:" at the head.  When the marker is present but
the tail fails after it, the regex backtracks to skipping the marker, where
the tail immediately fails on the letter s; so always consuming a present
marker is faithful. -/
def stripMarker (cs : List Char) : List Char :=
  if "strongs:".data.isPrefixOf cs then cs.drop 8
  else if "strong:".data.isPrefixOf cs then cs.drop 7
  else cs

/-- One attempt of STRONGS_RE at the current position. -/
def matchStrongsAt (cs : List Char) : Option (List Char × List Char) :=
  matchBody (stripMarker cs)

/-- Left-to-right global scan of STRONGS_RE (the `exec` loop of
`extractStrongs`): attempt a match at every position and collect the
captured tokens.  `fuel` bounds the recursion; every step consumes at least
one character, so `fuel = length` is enough. -/
def scanTokens : Nat → List Char → List (List Char)
  | 0, _ => []
  | _ + 1, [] => []
  | fuel + 1, c :: cs =>
    match matchStrongsAt (c :: cs) with
    | some (tok, rest) => tok :: scanTokens fuel rest
    | none => scanTokens fuel cs

/-- Leftmost match of `/\d{3,5}/`, the code's `token.match(/\d{3,5}/)`: at
each position a greedy digit run of length at least 3 (capped at 5) matches,
otherwise advance one character. -/
def firstDigits : List Char → Option (List Char)
  | [] => none
  | c :: cs =>
    let run := (c :: cs).takeWhile Char.isDigit
    if 3 ≤ run.length then some (run.take 5) else firstDigits cs

/-- Normalization of one captured token, mirroring the loop body of
`extractStrongs`: uppercase the system letter when present, re-extract the
digit run (skipping the token when none is found, the `continue`), default
the prefix to H, and render `parseInt(digits, 10)` back to decimal. -/
def normalizeToken (tok : List Char) : Option String :=
  let pfx : String :=
    match tok with
    | c :: _ => if isHG c then String.mk [c.toUpper] else "H"
    | [] => "H"
  match firstDigits tok with
  | none => none
  | some ds => some (pfx ++ Nat.repr (digitsVal ds))

/-- `extractStrongs` from scripts/import.ts.  `none` models a null/undefined
argument; the empty string is falsy in JS, so both return []. -/
def extractStrongs : Option String → List String
  | none => []
  | some s =>
    if s = "" then []
    else (scanTokens s.data.length s.data).filterMap normalizeToken

/-- Claim-side rendering of one raw match: the single-letter H/G prefix
uppercased (defaulting to H when missing) followed by the match's own digit
run parsed as an unpadded base-10 integer and re-rendered without leading
zeros. -/
def specNormalize (tok : List Char) : String :=
  match tok with
  | c :: rest =>
    if isHG c then String.mk [c.toUpper] ++ Nat.repr (digitsVal rest)
    else "H" ++ Nat.repr (digitsVal tok)
  | [] => "H"

/-- Well-formedness of a captured STRONGS_RE token: an optional H/G/h/g
letter followed by 3 to 5 decimal digits. -/
def WFTok (tok : List Char) : Prop :=
  ∃ ds : List Char, (tok = ds ∨ ∃ c, isHG c = true ∧ tok = c :: ds) ∧
    3 ≤ ds.length ∧ ds.length ≤ 5 ∧ ∀ c ∈ ds, c.isDigit = true

/-- JS `String.prototype.trim`, restricted to the ASCII whitespace that
`Char.isWhitespace` recognizes (the OSIS text contains no exotic spaces). -/
def jsTrim (s : String) : String :=
  String.mk (((s.data.dropWhile Char.isWhitespace).reverse.dropWhile Char.isWhitespace).reverse)

/-- JS `replace(/\//g, '')`: remove every slash. -/
def stripSlashes (s : String) : String :=
  String.mk (s.data.filter (fun c => c ≠ '/'))

/-- Maximal runs of non-whitespace characters: the result of JS
`split(/\s+/).filter(Boolean)`.  `fuel` bounds the recursion so that the
definition is structural (and kernel-computable); every step consumes at
least one character, so `fuel = length` is enough. -/
def splitWsF : Nat → List Char → List (List Char)
  | 0, _ => []
  | _ + 1, [] => []
  | fuel + 1, c :: cs =>
    if c.isWhitespace then splitWsF fuel cs
    else (c :: cs.takeWhile (fun x => ! x.isWhitespace)) ::
      splitWsF fuel (cs.dropWhile (fun x => ! x.isWhitespace))

/-- JS `cleaned.split(/\s+/).filter(Boolean)` as used by processTailText and
the word handler. -/
def splitWs (s : String) : List String := (splitWsF s.data.length s.data).map String.mk

/-- Character class `[.,;:!?]` of the tail-text punctuation regex. -/
def punctChar (c : Char) : Bool :=
  c = '.' ∨ c = ',' ∨ c = ';' ∨ c = ':' ∨ c = '!' ∨ c = '?'

/-- JS test `/^[.,;:!?]+$/.test(piece)`: nonempty and all characters in
the punctuation class. -/
def punctOnly (s : String) : Bool := s ≠ "" ∧ s.data.all punctChar

/-- JS `tag.name.replace(/^[^:]+:/, '')`: strip a nonempty namespace prefix
up to the first colon, when present. -/
def stripNs (s : String) : String :=
  let pre := s.data.takeWhile (fun c => c ≠ ':')
  if pre.length = 0 ∨ pre.length = s.data.length then s
  else String.mk (s.data.drop (pre.length + 1))

/-- Attribute lookup, `tag.attributes.k`; none models undefined. -/
def getAttr (attrs : List (String × String)) (k : String) : Option String :=
  (attrs.find? (fun p => p.1 = k)).map (fun p => p.2)

/-- JS truthiness of a string-or-undefined value. -/
def truthyS (o : Option String) : Bool :=
  match o with
  | some s => s ≠ ""
  | none => false

/-- JS `x || null` on a string-or-undefined value: the empty string is falsy
and collapses to null. -/
def orNull (o : Option String) : Option String :=
  match o with
  | some s => if s = "" then none else some s
  | none => none

/-- JS `parseInt(s, 10)` restricted to a leading run of decimal digits;
none models NaN.  (Sign and leading-whitespace handling are omitted: OSIS
ids carry plain digit runs, and no claim depends on these fields.) -/
def jsParseInt (s : String) : Option Nat :=
  let ds := s.data.takeWhile Char.isDigit
  if ds = [] then none else some (digitsVal ds)

/-- JS `\w` character class, used by the colophon osisID pattern. -/
def wChar (c : Char) : Bool := c.isAlphanum ∨ c = '_'

/-- JS `osisId.match(/^(\w+)\./)`: a nonempty run of word characters
followed immediately by a dot; returns capture group 1. -/
def bookMatch (s : String) : Option String :=
  let run := s.data.takeWhile wChar
  if run ≠ [] ∧ (s.data.drop run.length).head? = some '.' then some (String.mk run)
  else none

/-- Values stored in the `Record<string, unknown>` metadata objects built by
the importer: attribute strings, the boolean colophon flag, and the segment
list added by the seg handler (each segment is an object `{ type: t }`). -/
inductive MValue where
  | str (v : String)
  | flag (b : Bool)
  | segList (types : List String)
deriving DecidableEq

/-- JS object key assignment `m[k] = v` on a string-keyed record modelled as
an association list in insertion order: replace in place or append. -/
def mput : List (String × MValue) → String → MValue → List (String × MValue)
  | [], k, v => [(k, v)]
  | (k', v') :: t, k, v => if k' = k then (k, v) :: t else (k', v') :: mput t k v

/-- JS object key read `m[k]`; none models undefined. -/
def mget : List (String × MValue) → String → Option MValue
  | [], _ => none
  | (k', v') :: t, k => if k' = k then some v' else mget t k

/-- JS truthiness of a record member (undefined and the empty string and
false are falsy; objects and arrays are truthy). -/
def truthyM : Option MValue → Bool
  | some (MValue.str v) => v ≠ ""
  | some (MValue.flag b) => b
  | some (MValue.segList _) => true
  | none => false

/-- Word produced by the segmentation state machine (interface ParsedWord of
scripts/import.ts).  The source field `lemma` is spelled `lemmaVal` because
`lemma` is a Lean keyword. -/
structure ParsedWord where
  position : Nat
  text : String
  lemmaVal : Option String
  morph : Option String
  strongs : Option (List String)
  metadata : List (String × MValue)
deriving DecidableEq

/-- Verse produced by parseOsis (interface ParsedVerse); chapter and number
are parseInt results, so Option Nat with none for NaN. -/
structure ParsedVerse where
  book : String
  chapter : Option Nat
  number : Option Nat
  text : String
  words : List ParsedWord
  colophonWords : Option (List ParsedWord)
deriving DecidableEq

/-- Recorded colophon (interface ColophonData). -/
structure ColophonData where
  book : String
  words : List ParsedWord
deriving DecidableEq

/-- The mutable parse state captured by the parseOsis handlers. -/
structure PState where
  verses : List ParsedVerse
  colophons : List ColophonData
  current : Option (String × Option Nat × Option Nat)
  words : List ParsedWord
  pos : Nat
  noteDepth : Nat
  inColophon : Bool
  colophonBook : Option String
  colophonWords : List ParsedWord
  colophonPos : Nat
  inWord : Bool
  inTransChange : Bool
  wordText : String
  wordAttrs : List (String × String)
  transChangeText : String
  transChangeAttrs : List (String × String)
deriving DecidableEq

/-- Initial values of the handler-captured variables. -/
def initState : PState :=
  { verses := [], colophons := [], current := none, words := [], pos := 1
    noteDepth := 0, inColophon := false, colophonBook := none
    colophonWords := [], colophonPos := 1, inWord := false
    inTransChange := false, wordText := "", wordAttrs := []
    transChangeText := "", transChangeAttrs := [] }

/-- SAX events delivered by the saxes tokenizer.  Close events carry the tag
attributes because the closetag handler reads eID/osisID/sID/type from them. -/
inductive Event where
  | openTag (name : String) (attrs : List (String × String))
  | textData (s : String)
  | closeTag (name : String) (attrs : List (String × String))
deriving DecidableEq

/-- Mutate the last element of the buffered word list by appending to its
text (`words[words.length - 1].text += piece`). -/
def appendToLastText : List ParsedWord → String → List ParsedWord
  | [], _ => []
  | [w], p => [{ w with text := w.text ++ p }]
  | w :: ws, p => w :: appendToLastText ws p

/-- Loop body of processTailText over one whitespace-separated piece:
punctuation-only pieces are appended to the previous buffered word when one
exists; every other piece becomes its own Word, consuming one position. -/
def tailStep (acc : List ParsedWord × Nat) (piece : String) : List ParsedWord × Nat :=
  if punctOnly piece ∧ acc.1 ≠ [] then (appendToLastText acc.1 piece, acc.2)
  else
    (acc.1 ++ [{ position := acc.2, text := piece, lemmaVal := none, morph := none,
                 strongs := none, metadata := [] }],
     acc.2 + 1)

/-- processTailText from scripts/import.ts: guard, slash removal, trim,
whitespace split, then the per-piece loop over the verse word buffer. -/
def processTailText (st : PState) (t : String) : PState :=
  if jsTrim t = "" ∨ st.current = none ∨ 0 < st.noteDepth then st
  else
    let cleaned := jsTrim (stripSlashes t)
    let r := (splitWs cleaned).foldl tailStep (st.words, st.pos)
    { st with words := r.1, pos := r.2 }

/-- Consecutive word entries produced by the piece loop of the word-tag
close handler: each piece becomes one entry at the next position, all
sharing the tag's lemma, morph, strongs and metadata. -/
def mkEntries (lem mor : Option String) (strongs : Option (List String))
    (meta : List (String × MValue)) : Nat → List String → List ParsedWord
  | _, [] => []
  | n, p :: ps =>
    { position := n, text := p, lemmaVal := lem, morph := mor, strongs := strongs,
      metadata := meta } :: mkEntries lem mor strongs meta (n + 1) ps

/-- Metadata record built from an attribute list by repeated assignment
(insertion order preserved). -/
def attrsMeta (attrs : List (String × String)) : List (String × MValue) :=
  attrs.foldl (fun m p => mput m p.1 (MValue.str p.2)) []

/-- Colophon markers added to a word's metadata inside a colophon. -/
def addColophonFlags (m : List (String × MValue)) : List (String × MValue) :=
  mput (mput m "colophon" (MValue.flag true)) "colophon_type" (MValue.str "subscription")

/-- Segment append of the seg close handler:
`segments = (metadata.segments || []); segments.push({type}); ...`.
(The cast of a non-list `segments` member never occurs in the importer,
because the handler is the only writer of that key.) -/
def addSeg (m : List (String × MValue)) (segType : String) : List (String × MValue) :=
  let segs :=
    match mget m "segments" with
    | some (MValue.segList l) => l
    | _ => []
  mput m "segments" (MValue.segList (segs ++ [segType]))

/-- Apply `addSeg` to the last buffered word (the seg handler mutates
`words[words.length - 1]`). -/
def appendSegToLast : List ParsedWord → String → List ParsedWord
  | [], _ => []
  | [w], t => [{ w with metadata := addSeg w.metadata t }]
  | w :: ws, t => w :: appendSegToLast ws t

/-- JS `osisId.split('.')` with the literal one-character separator,
written structurally so that it is kernel-computable (Lean's String.splitOn
is defined by well-founded recursion). -/
def splitOnDotL : List Char → List (List Char)
  | [] => [[]]
  | c :: cs =>
    if c = '.' then [] :: splitOnDotL cs
    else
      match splitOnDotL cs with
      | t :: ts => (c :: t) :: ts
      | [] => [[c]]

/-- JS `osisId.split('.')` on strings. -/
def splitOnDot (s : String) : List String := (splitOnDotL s.data).map String.mk

/-- opentag handler of parseOsis (tag name already namespace-stripped). -/
def stepOpen (st : PState) (name : String) (attrs : List (String × String)) : PState :=
  if name = "div" then
    match getAttr attrs "osisID" with
    | some osisId =>
      if getAttr attrs "type" = some "colophon" ∧ osisId ≠ "" then
        match bookMatch osisId with
        | some b =>
          { st with inColophon := true, colophonBook := some b,
                    colophonWords := [], colophonPos := 1 }
        | none => st
      else st
    | none => st
  else if name = "verse" then
    match getAttr attrs "osisID" with
    | some osisId =>
      if osisId ≠ "" ∧ st.current = none then
        match splitOnDot osisId with
        | [book, chap, num] =>
          { st with current := some (book, jsParseInt chap, jsParseInt num),
                    words := [], pos := 1 }
        | _ => st
      else st
    | none => st
  else if name = "w" then
    if (st.current ≠ none ∨ st.inColophon = true) ∧ st.noteDepth = 0 then
      { st with inWord := true, wordText := "", wordAttrs := attrs }
    else st
  else if name = "transChange" then
    if (st.current ≠ none ∨ st.inColophon = true) ∧ st.noteDepth = 0 then
      { st with inTransChange := true, transChangeText := "", transChangeAttrs := attrs }
    else st
  else if name = "note" then
    if st.current ≠ none ∨ st.inColophon = true then
      { st with noteDepth := st.noteDepth + 1 }
    else st
  else st

/-- text handler of parseOsis. -/
def stepText (st : PState) (t : String) : PState :=
  if 0 < st.noteDepth then st
  else if st.inWord = true then { st with wordText := st.wordText ++ t }
  else if st.inTransChange = true then { st with transChangeText := st.transChangeText ++ t }
  else if st.current ≠ none then processTailText st t
  else st

/-- Join by single spaces, `words.map(w => w.text).join(' ')`. -/
def joinWords (l : List String) : String := String.intercalate " " l

/-- One global replacement pass of `replace(/\s+([,.;:!?])/g, '$1')`:
whitespace runs immediately preceding a punctuation character are deleted.
`fuel` bounds the recursion (fuel = length is enough: a whitespace head is
always consumed by the dropWhile). -/
def punctFixF : Nat → List Char → List Char
  | 0, l => l
  | _ + 1, [] => []
  | fuel + 1, c :: cs =>
    if c.isWhitespace then
      match (c :: cs).dropWhile Char.isWhitespace with
      | p :: rs =>
        if punctChar p then p :: punctFixF fuel rs
        else (c :: cs).takeWhile Char.isWhitespace ++ punctFixF fuel (p :: rs)
      | [] => c :: cs
    else c :: punctFixF fuel cs

/-- Punctuation re-attachment on the joined verse text. -/
def punctFix (s : String) : String := String.mk (punctFixF s.data.length s.data)

/-- The word-tag close handler's local variables, as functions of the
state: the trimmed slash-free accumulated text, `lemma || null`,
`morph || null`, the extracted strongs (null when empty), the metadata from
the remaining attributes, and the whitespace split.  The source binds these
as consts inside the handler; naming them makes the handler's branches plain
record updates. -/
def wText (st : PState) : String := jsTrim (stripSlashes st.wordText)

/-- Handler local `lemma = wordAttrs.lemma || null`. -/
def wLem (st : PState) : Option String := orNull (getAttr st.wordAttrs "lemma")

/-- Handler local `morph = wordAttrs.morph || null`. -/
def wMor (st : PState) : Option String := orNull (getAttr st.wordAttrs "morph")

/-- Handler local `strongs = lemma ? extractStrongs(lemma) : null`. -/
def wStrongs0 (st : PState) : Option (List String) :=
  match wLem st with
  | some l => some (extractStrongs (some l))
  | none => none

/-- Per-entry `strongs && strongs.length > 0 ? strongs : null`. -/
def wStrongsF (st : PState) : Option (List String) :=
  match wStrongs0 st with
  | some l => if l ≠ [] then some l else none
  | none => none

/-- Handler local metadata built from the attributes other than lemma and
morph. -/
def wMeta0 (st : PState) : List (String × MValue) :=
  attrsMeta (st.wordAttrs.filter (fun p => p.1 ≠ "lemma" ∧ p.1 ≠ "morph"))

/-- The whitespace split of the word text (the multi-token piece loop). -/
def wPieces (st : PState) : List String := splitWs (wText st)

/-- Handler local `tcText = transChangeText.trim()` (no slash removal). -/
def tcText (st : PState) : String := jsTrim st.transChangeText

/-- transChange handler metadata from the element's attributes. -/
def tcMeta (st : PState) : List (String × MValue) := attrsMeta st.transChangeAttrs

/-- closetag handler of parseOsis (tag name already namespace-stripped). -/
def stepClose (st : PState) (name : String) (attrs : List (String × String)) : PState :=
  if name = "div" then
    match st.colophonBook with
    | some b =>
      if st.inColophon = true ∧ b ≠ "" ∧ st.colophonWords ≠ [] then
        { st with colophons := st.colophons ++ [{ book := b, words := st.colophonWords }],
                  inColophon := false, colophonBook := none }
      else { st with inColophon := false, colophonBook := none }
    | none => { st with inColophon := false, colophonBook := none }
  else if name = "verse" then
    match st.current with
    | some cur =>
      if truthyS (getAttr attrs "eID") = true ∨
          (truthyS (getAttr attrs "osisID") = true ∧ truthyS (getAttr attrs "sID") = false) then
        { st with
          verses := st.verses ++
            [{ book := cur.1, chapter := cur.2.1, number := cur.2.2,
               text := punctFix (joinWords (st.words.map (fun w => w.text))),
               words := st.words, colophonWords := none }],
          current := none }
      else st
    | none => st
  else if name = "w" then
    if st.inWord = true ∧ (st.current ≠ none ∨ st.inColophon = true) ∧ st.noteDepth = 0 then
      if wText st = "" then { st with inWord := false }
      else if st.inColophon = true then
        { st with inWord := false,
                  colophonWords := st.colophonWords ++
                    mkEntries (wLem st) (wMor st) (wStrongsF st)
                      (addColophonFlags (wMeta0 st)) st.colophonPos (wPieces st),
                  colophonPos := st.colophonPos + (wPieces st).length }
      else
        { st with inWord := false,
                  words := st.words ++
                    mkEntries (wLem st) (wMor st) (wStrongsF st) (wMeta0 st)
                      st.pos (wPieces st),
                  pos := st.pos + (wPieces st).length }
    else st
  else if name = "transChange" then
    if st.inTransChange = true ∧ (st.current ≠ none ∨ st.inColophon = true) ∧
        st.noteDepth = 0 then
      if tcText st = "" then { st with inTransChange := false }
      else if st.inColophon = true then
        { st with inTransChange := false,
                  colophonWords := st.colophonWords ++
                    [{ position := st.colophonPos, text := tcText st, lemmaVal := none,
                       morph := none, strongs := none,
                       metadata := addColophonFlags (tcMeta st) }],
                  colophonPos := st.colophonPos + 1 }
      else
        { st with inTransChange := false,
                  words := st.words ++
                    [{ position := st.pos, text := tcText st, lemmaVal := none,
                       morph := none, strongs := none, metadata := tcMeta st }],
                  pos := st.pos + 1 }
    else st
  else if name = "note" then
    if 0 < st.noteDepth then { st with noteDepth := st.noteDepth - 1 } else st
  else if name = "seg" then
    if st.current ≠ none ∧ st.noteDepth = 0 then
      match getAttr attrs "type" with
      | some segType =>
        if st.words ≠ [] ∧ segType ≠ "" then
          { st with words := appendSegToLast st.words segType }
        else st
      | none => st
    else st
  else st

/-- One SAX event applied to the state; open and close strip the namespace
prefix of the tag name first, as both handlers do. -/
def step (st : PState) (e : Event) : PState :=
  match e with
  | Event.openTag n a => stepOpen st (stripNs n) a
  | Event.textData t => stepText st t
  | Event.closeTag n a => stepClose st (stripNs n) a

/-- Run the handlers over the whole event stream. -/
def runEvents (es : List Event) : PState := es.foldl step initState

/-- In-place renumbering `colophon.words[i].position = startPos + i` of the
colophon attachment loop. -/
def renumber (n : Nat) : List ParsedWord → List ParsedWord
  | [] => []
  | w :: ws => { w with position := n } :: renumber (n + 1) ws

/-- Attachment of one colophon: the backward scan of the verses array finds
the last verse of the colophon's book; its colophonWords field receives the
renumbered colophon words, starting at `words.length + 1`. -/
def attachLast (c : ColophonData) : List ParsedVerse → List ParsedVerse
  | [] => []
  | v :: vs =>
    if vs.any (fun u => u.book = c.book) then v :: attachLast c vs
    else if v.book = c.book then
      { v with colophonWords := some (renumber (v.words.length + 1) c.words) } :: vs
    else v :: vs

/-- Post-pass loop `for (const colophon of colophons)`. -/
def attachColophons (vs : List ParsedVerse) (cs : List ColophonData) : List ParsedVerse :=
  cs.foldl (fun acc c => attachLast c acc) vs

/-- parseOsis from scripts/import.ts: run the event stream, then attach the
recorded colophons. -/
def parseOsis (es : List Event) : List ParsedVerse :=
  attachColophons (runEvents es).verses (runEvents es).colophons

/-- A word counts as colophon-flagged where the importer checks
`metadata?.colophon` truthiness. -/
def wordFlagged (w : ParsedWord) : Bool := truthyM (mget w.metadata "colophon")

/-
saveVerse: assembly of the persisted per-verse record.
-/

/-- Stored word record (interface WordEntry).  In the object literal built by
saveVerse the keys lemma and morph always exist and may hold null (here:
Option with none for null), while strongs and metadata are set to undefined
when empty (here: none means the key is absent).  The source field `lemma`
is spelled `lemmaVal` because `lemma` is a Lean keyword. -/
structure WordEntry where
  position : Nat
  text : String
  lemmaVal : Option String
  morph : Option String
  strongs : Option (List String)
  metadata : Option (List (String × MValue))
  gematria : Gematria
deriving DecidableEq

/-- Conversion applied by saveVerse to body words and, identically, to
attached colophon words:
`strongs: w.strongs && w.strongs.length > 0 ? w.strongs : undefined` and
`metadata: Object.keys(w.metadata || {}).length > 0 ? w.metadata : undefined`. -/
def toWordEntry (w : ParsedWord) : WordEntry :=
  { position := w.position
    text := w.text
    lemmaVal := w.lemmaVal
    morph := w.morph
    strongs :=
      match w.strongs with
      | some l => if l ≠ [] then some l else none
      | none => none
    metadata := if w.metadata ≠ [] then some w.metadata else none
    gematria := computeGematria w.text }

/-- Verse-level colophon metadata block. -/
structure VerseMetadata where
  has_colophon : Bool
  colophon_word_range : Nat × Nat
  colophon_type : String
deriving DecidableEq

/-- Persisted verse record (interface VerseData); the gematria totals are a
string-keyed record built incrementally, so an association list. -/
structure VerseData where
  text : String
  words : List WordEntry
  gematria : List (String × Nat)
  metadata : Option VerseMetadata
deriving DecidableEq

/-- The skip test of the totals loop: `if (entry.metadata?.colophon) continue`. -/
def entryFlagged (e : WordEntry) : Bool :=
  match e.metadata with
  | some m => truthyM (mget m "colophon")
  | none => false

/-- `totals[k] = (totals[k] || 0) + v` on the association-list record. -/
def bump : List (String × Nat) → String → Nat → List (String × Nat)
  | [], k, v => [(k, v)]
  | (k', v') :: t, k, v => if k' = k then (k, v' + v) :: t else (k', v') :: bump t k v

/-- `Object.entries(entry.gematria)` in insertion order of the literal built
by computeGematria. -/
def gemEntries (g : Gematria) : List (String × Nat) :=
  [("standard", g.standard), ("ordinal", g.ordinal), ("reduced", g.reduced)]

/-- Body of the totals loop over one word entry. -/
def addTotals (acc : List (String × Nat)) (e : WordEntry) : List (String × Nat) :=
  if entryFlagged e then acc
  else (gemEntries e.gematria).foldl (fun a p => bump a p.1 p.2) acc

/-- saveVerse from scripts/import.ts, its pure record-assembly part (the
directory creation and file write around it are I/O).  Body words first,
then the attached colophon words when present; totals skip colophon-flagged
entries; the verse metadata block exists exactly when colophon words were
attached and records first and last attached position. -/
def saveVerse (verse : ParsedVerse) : VerseData :=
  let wordEntries :=
    verse.words.map toWordEntry ++
      (match verse.colophonWords with
       | some cw => cw.map toWordEntry
       | none => [])
  let totals := wordEntries.foldl addTotals []
  let meta : Option VerseMetadata :=
    match verse.colophonWords with
    | some cw =>
      match cw.head?, cw.getLast? with
      | some first, some last =>
        some { has_colophon := true
               colophon_word_range := (first.position, last.position)
               colophon_type := "subscription" }
      | _, _ => none
    | none => none
  { text := verse.text, words := wordEntries, gematria := totals, metadata := meta }

/-- Record lookup with the JS default `(totals[k] || 0)`. -/
def lookupD (l : List (String × Nat)) (k : String) : Nat :=
  match l.find? (fun p => p.1 = k) with
  | some p => p.2
  | none => 0

/-
JSON values, and the serialization shape produced by JSON.stringify on the
records assembled by saveVerse: object keys in insertion order,
undefined-valued keys omitted, null values kept.
-/

/-- JSON values. -/
inductive JValue where
  | jnull
  | jstr (s : String)
  | jnum (n : Nat)
  | jbool (b : Bool)
  | jarr (elems : List JValue)
  | jobj (fields : List (String × JValue))

/-- Serialization of a string-or-null member. -/
def optStrJson : Option String → JValue
  | some s => JValue.jstr s
  | none => JValue.jnull

/-- Serialization of one metadata value (segments are objects `{type: t}`). -/
def mvalueJson : MValue → JValue
  | MValue.str v => JValue.jstr v
  | MValue.flag b => JValue.jbool b
  | MValue.segList l => JValue.jarr (l.map (fun t => JValue.jobj [("type", JValue.jstr t)]))

/-- Serialization of a metadata record. -/
def metaJson (m : List (String × MValue)) : JValue :=
  JValue.jobj (m.map (fun p => (p.1, mvalueJson p.2)))

/-- JSON.stringify of one stored word record: position, text, lemma and
morph always appear (lemma and morph as null when absent); strongs and
metadata are omitted entirely when undefined; gematria always appears. -/
def wordEntryJson (e : WordEntry) : JValue :=
  JValue.jobj
    ([("position", JValue.jnum e.position), ("text", JValue.jstr e.text),
      ("lemma", optStrJson e.lemmaVal), ("morph", optStrJson e.morph)] ++
     (match e.strongs with
      | some l => [("strongs", JValue.jarr (l.map JValue.jstr))]
      | none => []) ++
     (match e.metadata with
      | some m => [("metadata", metaJson m)]
      | none => []) ++
     [("gematria", JValue.jobj
        [("standard", JValue.jnum e.gematria.standard),
         ("ordinal", JValue.jnum e.gematria.ordinal),
         ("reduced", JValue.jnum e.gematria.reduced)])])

/-- JSON.stringify of the verse-level colophon metadata block. -/
def verseMetadataJson (m : VerseMetadata) : JValue :=
  JValue.jobj
    [("has_colophon", JValue.jbool m.has_colophon),
     ("colophon_word_range",
      JValue.jarr [JValue.jnum m.colophon_word_range.1, JValue.jnum m.colophon_word_range.2]),
     ("colophon_type", JValue.jstr m.colophon_type)]

/-- JSON.stringify of the whole verse record: the metadata key is present
exactly when the metadata member is defined. -/
def verseDataJson (d : VerseData) : JValue :=
  JValue.jobj
    ([("text", JValue.jstr d.text),
      ("words", JValue.jarr (d.words.map wordEntryJson)),
      ("gematria", JValue.jobj (d.gematria.map (fun p => (p.1, JValue.jnum p.2))))] ++
     (match d.metadata with
      | some m => [("metadata", verseMetadataJson m)]
      | none => []))

/-- Key existence in a serialized JSON object. -/
def hasKey (j : JValue) (k : String) : Bool :=
  match j with
  | JValue.jobj fields => fields.any (fun p => p.1 = k)
  | _ => false

/-- Key read in a serialized JSON object. -/
def getKey (j : JValue) (k : String) : Option JValue :=
  match j with
  | JValue.jobj fields => (fields.find? (fun p => p.1 = k)).map (fun p => p.2)
  | _ => none

/-
Helper lemmas about the small string utilities.
-/

/-- A verse containing one translator-insertion element whose accumulated
text holds two whitespace-separated tokens. -/
def ex4 : List Event :=
  [Event.openTag "verse" [("osisID", "Gen.1.1")],
   Event.openTag "transChange" [("type", "added")],
   Event.textData "there was",
   Event.closeTag "transChange" [("type", "added")],
   Event.closeTag "verse" [("osisID", "Gen.1.1")]]

/-- A colophon section receiving raw character data while no word or
translator-insertion element and no verse is open. -/
def ex5 : List Event :=
  [Event.openTag "div" [("type", "colophon"), ("osisID", "Rom.c")],
   Event.textData "Written to the Romans"]

/-- A verse whose single word comes from tail text, so it carries no lemma
and no morph. -/
def ex6 : List Event :=
  [Event.openTag "verse" [("osisID", "Gen.1.1")],
   Event.textData "In",
   Event.closeTag "verse" [("osisID", "Gen.1.1")]]

/-- Concrete state for the C4 witness: inside a verse, a transChange with
two accumulated tokens is pending. -/
def st4 : PState :=
  { initState with inTransChange := true,
                   current := some ("Gen", some 1, some 1),
                   transChangeText := "there was",
                   transChangeAttrs := [("type", "added")] }

/-- The single tail-text word of ex6: no lemma, no morph, no strongs. -/
def w6 : ParsedWord :=
  { position := 1, text := "In", lemmaVal := none, morph := none,
    strongs := none, metadata := [] }

/-- The verse produced by ex6. -/
def v6 : ParsedVerse :=
  { book := "Gen", chapter := some 1, number := some 1, text := "In",
    words := [w6], colophonWords := none }

/-- Contiguity of the position counter against a word buffer: positions run
1, 2, ..., length, and the counter holds length + 1. -/
def PosOK (ws : List ParsedWord) (n : Nat) : Prop :=
  ws.map ParsedWord.position = List.range' 1 ws.length ∧ n = ws.length + 1

/-- The parse-state invariant maintained by every SAX event: the verse word
buffer and every finished verse have contiguous positions from 1; finished
verses carry no colophon yet; buffered and recorded colophon words carry the
colophon flag; recorded colophons are nonempty. -/
structure Inv (st : PState) : Prop where
  wordsPos : st.current ≠ none → PosOK st.words st.pos
  versesPos : ∀ v ∈ st.verses,
    v.words.map ParsedWord.position = List.range' 1 v.words.length
  versesNoCol : ∀ v ∈ st.verses, v.colophonWords = none
  colWordsFlag : ∀ w ∈ st.colophonWords, wordFlagged w = true
  colsFlag : ∀ c ∈ st.colophons,
    (∀ w ∈ c.words, wordFlagged w = true) ∧ c.words ≠ []

/-- Positions of every finished verse are contiguous from 1. -/
abbrev PosProp (l : List ParsedVerse) : Prop :=
  ∀ v ∈ l, v.words.map ParsedWord.position = List.range' 1 v.words.length

/-- Every verse holding attached colophon words is the last verse of its
book, and its attachment is the renumbering of a recorded colophon. -/
abbrev AttachOK (cols : List ColophonData) (l : List ParsedVerse) : Prop :=
  ∀ (i : Nat) (v : ParsedVerse) (cw : List ParsedWord),
    l[i]? = some v → v.colophonWords = some cw →
    (∀ (j : Nat) (u : ParsedVerse), i < j → l[j]? = some u → ¬ u.book = v.book) ∧
    ∃ c ∈ cols, cw = renumber (v.words.length + 1) c.words

/-- Events for the colophon witnesses: a verse of Romans followed by the
book's colophon. -/
def exC : List Event :=
  [Event.openTag "verse" [("osisID", "Rom.16.27")],
   Event.openTag "w" [("lemma", "strong:G2316")],
   Event.textData "God",
   Event.closeTag "w" [("lemma", "strong:G2316")],
   Event.textData " be glory",
   Event.closeTag "verse" [("osisID", "Rom.16.27")],
   Event.openTag "div" [("type", "colophon"), ("osisID", "Rom.c")],
   Event.openTag "w" [],
   Event.textData "Written to the Romans",
   Event.closeTag "w" [],
   Event.closeTag "div" []]

/-- Metadata carried by every colophon word of exC. -/
def colMetaC : List (String × MValue) :=
  [("colophon", MValue.flag true), ("colophon_type", MValue.str "subscription")]

/-- The attached (renumbered) colophon words of exC. -/
def cwC : List ParsedWord :=
  [{ position := 4, text := "Written", lemmaVal := none, morph := none,
     strongs := none, metadata := colMetaC },
   { position := 5, text := "to", lemmaVal := none, morph := none,
     strongs := none, metadata := colMetaC },
   { position := 6, text := "the", lemmaVal := none, morph := none,
     strongs := none, metadata := colMetaC },
   { position := 7, text := "Romans", lemmaVal := none, morph := none,
     strongs := none, metadata := colMetaC }]

/-- The verse produced by exC with its attached colophon. -/
def vC : ParsedVerse :=
  { book := "Rom", chapter := some 16, number := some 27, text := "God be glory",
    words := [{ position := 1, text := "God", lemmaVal := some "strong:G2316",
                morph := none, strongs := some ["G2316"], metadata := [] },
              { position := 2, text := "be", lemmaVal := none, morph := none,
                strongs := none, metadata := [] },
              { position := 3, text := "glory", lemmaVal := none, morph := none,
                strongs := none, metadata := [] }],
    colophonWords := some cwC }

theorem digital_root_step (v : Nat) (h : 1 ≤ v) :
    (if v % 9 = 0 then 9 else v % 9) = (v - 1) % 9 + 1 := by
  split <;> omega

theorem gemStep_standard (g : Gematria) (c : Char) :
    (gemStep g c).standard = g.standard + letterVal c := by
  unfold gemStep letterVal
  by_cases hc : 65 ≤ c.toNat ∧ c.toNat ≤ 90 <;> simp [hc]

theorem gemStep_ordinal (g : Gematria) (c : Char) :
    (gemStep g c).ordinal = g.ordinal + letterVal c := by
  unfold gemStep letterVal
  by_cases hc : 65 ≤ c.toNat ∧ c.toNat ≤ 90 <;> simp [hc]

theorem gemStep_reduced (g : Gematria) (c : Char) :
    (gemStep g c).reduced =
      g.reduced + (if letterVal c = 0 then 0 else (letterVal c - 1) % 9 + 1) := by
  by_cases hc : 65 ≤ c.toNat ∧ c.toNat ≤ 90
  · have hval : letterVal c = c.toNat - 64 := by simp [letterVal, hc]
    have h1 : 1 ≤ c.toNat - 64 := by omega
    have h0 : ¬ (c.toNat - 64 = 0) := by omega
    unfold gemStep
    simp only [if_pos hc, hval, if_neg h0]
    rw [digital_root_step _ h1]
  · have hval : letterVal c = 0 := by simp [letterVal, hc]
    unfold gemStep
    simp [hc, hval]

theorem computeGematriaAux_standard (cs : List Char) : ∀ g : Gematria,
    (computeGematriaAux g cs).standard = g.standard + alphaSum cs := by
  induction cs with
  | nil => intro g; simp [computeGematriaAux, alphaSum]
  | cons c cs ih =>
    intro g
    rw [computeGematriaAux, ih, gemStep_standard]
    simp only [alphaSum, List.map_cons, List.sum_cons]
    omega

theorem computeGematriaAux_ordinal (cs : List Char) : ∀ g : Gematria,
    (computeGematriaAux g cs).ordinal = g.ordinal + alphaSum cs := by
  induction cs with
  | nil => intro g; simp [computeGematriaAux, alphaSum]
  | cons c cs ih =>
    intro g
    rw [computeGematriaAux, ih, gemStep_ordinal]
    simp only [alphaSum, List.map_cons, List.sum_cons]
    omega

theorem computeGematriaAux_reduced (cs : List Char) : ∀ g : Gematria,
    (computeGematriaAux g cs).reduced = g.reduced + reducedSum cs := by
  induction cs with
  | nil => intro g; simp [computeGematriaAux, reducedSum]
  | cons c cs ih =>
    intro g
    rw [computeGematriaAux, ih, gemStep_reduced]
    simp only [reducedSum, List.map_cons, List.sum_cons]
    omega

theorem computeGematria_standard (s : String) :
    (computeGematria s).standard = alphaSum (s.data.map Char.toUpper) := by
  unfold computeGematria
  rw [computeGematriaAux_standard]
  simp

theorem computeGematria_ordinal (s : String) :
    (computeGematria s).ordinal = alphaSum (s.data.map Char.toUpper) := by
  unfold computeGematria
  rw [computeGematriaAux_ordinal]
  simp

theorem computeGematria_reduced (s : String) :
    (computeGematria s).reduced = reducedSum (s.data.map Char.toUpper) := by
  unfold computeGematria
  rw [computeGematriaAux_reduced]
  simp

/-- C2 (code evaluated at the failing input): for "God" the code returns
standard = 26 and ordinal = 26 as the claim states, but reduced = 17
(the sum of the per-letter digital roots G=7, O=6, D=4), not 8 (the digital
root of the total 26) as the claim and the repository's own test
(tests/source.test.ts, `expect(godWord.gematria.reduced).toBe(8)`) require. -/
theorem c2_gematria_God_code_result :
    computeGematria "God" = { standard := 26, ordinal := 26, reduced := 17 } := by
  decide

/-- C8: for every input string the reduced gematria value is the sum, over the
A-Z letters of the uppercased input, of `((letterValue - 1) mod 9) + 1`
(per-letter digital root, sending 9, 18, 27 to 9 rather than 0); and the
code's per-letter expression `val % 9 || 9` agrees with that formula for all
letter values 1 through 26. -/
theorem c8_reduced_digital_root :
    (∀ v : Nat, 1 ≤ v → v ≤ 26 →
      (if v % 9 = 0 then 9 else v % 9) = (v - 1) % 9 + 1) ∧
    (∀ s : String, (computeGematria s).reduced = reducedSum (s.data.map Char.toUpper)) := by
  constructor
  · intro v h1 _h2
    exact digital_root_step v h1
  · intro s
    exact computeGematria_reduced s

/-- Witness for C8 at concrete inputs: the per-letter agreement at v = 9 and
the whole-string formula for "God". -/
theorem c8_reduced_digital_root_witness :
    (if 9 % 9 = 0 then 9 else 9 % 9) = (9 - 1) % 9 + 1 ∧
    (computeGematria "God").reduced = reducedSum ("God".data.map Char.toUpper) :=
  ⟨c8_reduced_digital_root.1 9 (by decide) (by decide),
   c8_reduced_digital_root.2 "God"⟩

/-- C9: for every input string the gematria function returns standard equal
to ordinal, and both equal the sum of 1-based alphabet positions of the A-Z
letters of the uppercased input (non-letters contributing nothing). -/
theorem c9_standard_eq_ordinal (s : String) :
    (computeGematria s).standard = (computeGematria s).ordinal ∧
    (computeGematria s).standard = alphaSum (s.data.map Char.toUpper) := by
  rw [computeGematria_standard, computeGematria_ordinal]
  exact ⟨rfl, rfl⟩

theorem isHG_not_digit {c : Char} (h : isHG c = true) : c.isDigit = false := by
  unfold isHG at h
  simp only [decide_eq_true_eq] at h
  rcases h with h | h | h | h <;> subst h <;> decide

theorem digit_not_isHG {c : Char} (h : c.isDigit = true) : isHG c = false := by
  cases hg : isHG c
  · rfl
  · rw [isHG_not_digit hg] at h
    cases h

theorem matchBody_wf {cs tok rest : List Char}
    (h : matchBody cs = some (tok, rest)) : WFTok tok := by
  cases cs with
  | nil => simp [matchBody] at h
  | cons c cs =>
    simp only [matchBody] at h
    by_cases hg : isHG c = true
    · rw [if_pos hg] at h
      by_cases hd : 3 ≤ min (cs.takeWhile Char.isDigit).length 5
      · rw [if_pos hd] at h
        rw [Option.some.injEq, Prod.mk.injEq] at h
        obtain ⟨h1, _h2⟩ := h
        subst h1
        refine ⟨_, Or.inr ⟨c, hg, rfl⟩, ?_, ?_, ?_⟩
        · simp only [List.length_take]
          omega
        · simp only [List.length_take]
          omega
        · intro x hx
          exact List.mem_takeWhile_imp (List.take_subset _ _ hx)
      · rw [if_neg hd] at h
        cases h
    · rw [if_neg hg] at h
      by_cases hd : 3 ≤ min ((c :: cs).takeWhile Char.isDigit).length 5
      · rw [if_pos hd] at h
        rw [Option.some.injEq, Prod.mk.injEq] at h
        obtain ⟨h1, _h2⟩ := h
        subst h1
        refine ⟨_, Or.inl rfl, ?_, ?_, ?_⟩
        · simp only [List.length_take]
          omega
        · simp only [List.length_take]
          omega
        · intro x hx
          exact List.mem_takeWhile_imp (List.take_subset _ _ hx)
      · rw [if_neg hd] at h
        cases h

theorem matchStrongsAt_wf {cs tok rest : List Char}
    (h : matchStrongsAt cs = some (tok, rest)) : WFTok tok :=
  matchBody_wf h

theorem scanTokens_wf : ∀ (fuel : Nat) (cs tok : List Char),
    tok ∈ scanTokens fuel cs → WFTok tok := by
  intro fuel
  induction fuel with
  | zero => intro cs tok h; simp [scanTokens] at h
  | succ fuel ih =>
    intro cs tok h
    cases cs with
    | nil => simp [scanTokens] at h
    | cons c cs =>
      cases hm : matchStrongsAt (c :: cs) with
      | none =>
        simp only [scanTokens, hm] at h
        exact ih cs tok h
      | some p =>
        obtain ⟨t, r⟩ := p
        simp only [scanTokens, hm, List.mem_cons] at h
        rcases h with rfl | h
        · exact matchStrongsAt_wf hm
        · exact ih r tok h

theorem takeWhile_all_digits {ds : List Char} (h : ∀ c ∈ ds, c.isDigit = true) :
    ds.takeWhile Char.isDigit = ds :=
  List.takeWhile_eq_self_iff.mpr h

theorem firstDigits_all_digits {ds : List Char} (h3 : 3 ≤ ds.length)
    (h5 : ds.length ≤ 5) (hdig : ∀ c ∈ ds, c.isDigit = true) :
    firstDigits ds = some ds := by
  cases ds with
  | nil => simp at h3
  | cons c cs =>
    simp only [firstDigits]
    rw [takeWhile_all_digits hdig]
    rw [if_pos h3]
    rw [List.take_of_length_le h5]

theorem normalizeToken_wf {tok : List Char} (h : WFTok tok) :
    normalizeToken tok = some (specNormalize tok) := by
  obtain ⟨ds, hshape, h3, h5, hdig⟩ := h
  have hfirst_ds : firstDigits ds = some ds := firstDigits_all_digits h3 h5 hdig
  rcases hshape with rfl | ⟨c, hg, rfl⟩
  · cases tok with
    | nil => simp at h3
    | cons c cs =>
      have hcd : c.isDigit = true := hdig c (by simp)
      have hcg : isHG c = false := digit_not_isHG hcd
      simp only [normalizeToken, specNormalize]
      rw [hfirst_ds]
      simp [hcg]
  · have hcd : c.isDigit = false := isHG_not_digit hg
    have hfirst : firstDigits (c :: ds) = some ds := by
      simp only [firstDigits]
      rw [List.takeWhile_cons_of_neg (by simp [hcd])]
      simp only [List.length_nil]
      rw [if_neg (by omega)]
      exact hfirst_ds
    simp only [normalizeToken, specNormalize]
    rw [hfirst]
    simp [hg]

theorem filterMap_eq_map_of_mem {α β : Type} (f : α → Option β) (g : α → β) :
    ∀ l : List α, (∀ x ∈ l, f x = some (g x)) → l.filterMap f = l.map g := by
  intro l
  induction l with
  | nil => intro _; rfl
  | cons x xs ih =>
    intro h
    rw [List.filterMap_cons, h x (by simp), List.map_cons,
      ih (fun y hy => h y (by simp [hy]))]

/-- C7: extractStrongs returns the STRONGS_RE matches in left-to-right order,
each normalized per the claim (prefix uppercased, missing prefix defaulting
to H, digit run re-rendered without leading zeros, e.g. raw "H0091" becoming
"H91"); null and empty input yield the empty sequence, and duplicates are
preserved. -/
theorem c7_extractStrongs_normalization :
    extractStrongs none = [] ∧
    extractStrongs (some "") = [] ∧
    extractStrongs (some "H0091") = ["H91"] ∧
    extractStrongs (some "strongs:h0123 G456 789 H0123") = ["H123", "G456", "H789", "H123"] ∧
    ∀ s : String, extractStrongs (some s) =
      (scanTokens s.data.length s.data).map specNormalize := by
  refine ⟨rfl, by decide, by decide, by decide, ?_⟩
  intro s
  by_cases hs : s = ""
  · subst hs
    decide
  · show extractStrongs (some s) = _
    simp only [extractStrongs]
    rw [if_neg hs]
    exact filterMap_eq_map_of_mem _ _ _
      (fun tok htok => normalizeToken_wf (scanTokens_wf _ _ _ htok))

/-
Segmentation state machine of parseOsis.  SAX events are modelled as an
explicit event list; the mutable variables captured by the three handlers
become the fields of PState; each handler becomes a function on PState.
-/

/-- Dropping a prefix cannot lengthen a list (used for termination). -/
theorem dropWhileLengthLe {A : Type} (p : A → Bool) (l : List A) :
    (l.dropWhile p).length ≤ l.length := by
  induction l with
  | nil => simp [List.dropWhile]
  | cons a l ih =>
    rw [List.dropWhile_cons]
    split
    · simp only [List.length_cons]
      omega
    · simp only [List.length_cons]
      omega

theorem stringMk_data (s : String) : String.mk s.data = s := by
  cases s
  rfl

theorem dropWhile_forall_neg {A : Type} (p : A → Bool) (l : List A)
    (h : ∀ c ∈ l, p c = false) : l.dropWhile p = l := by
  cases l with
  | nil => rfl
  | cons a l =>
    rw [List.dropWhile_cons_of_neg]
    simp [h a (List.mem_cons_self a l)]

theorem jsTrim_of_no_ws {s : String} (h : ∀ c ∈ s.data, c.isWhitespace = false) :
    jsTrim s = s := by
  unfold jsTrim
  rw [dropWhile_forall_neg _ _ h]
  rw [dropWhile_forall_neg _ _ (fun c hc => h c (List.mem_reverse.mp hc))]
  rw [List.reverse_reverse]

theorem punctChar_not_ws {c : Char} (h : punctChar c = true) :
    c.isWhitespace = false := by
  unfold punctChar at h
  simp only [decide_eq_true_eq] at h
  rcases h with h | h | h | h | h | h <;> subst h <;> decide

theorem punctChar_not_slash {c : Char} (h : punctChar c = true) :
    (decide (c ≠ '/')) = true := by
  unfold punctChar at h
  simp only [decide_eq_true_eq] at h
  rcases h with h | h | h | h | h | h <;> subst h <;> decide

theorem data_ne_nil_of_ne_empty {s : String} (h : s ≠ "") : s.data ≠ [] := by
  intro hd
  apply h
  cases s
  simp only at hd
  rw [hd]

theorem punctOnly_parts {p : String} (h : punctOnly p = true) :
    p ≠ "" ∧ ∀ c ∈ p.data, punctChar c = true := by
  unfold punctOnly at h
  simp only [Bool.decide_and, Bool.and_eq_true, decide_eq_true_eq] at h
  exact ⟨h.1, List.all_eq_true.mp h.2⟩

theorem splitWsF_nil (fuel : Nat) : splitWsF fuel [] = [] := by
  cases fuel <;> rfl

theorem punctOnly_facts {p : String} (h : punctOnly p = true) :
    jsTrim p = p ∧ stripSlashes p = p ∧ splitWs p = [p] := by
  obtain ⟨hne, hall⟩ := punctOnly_parts h
  have hnws : ∀ c ∈ p.data, c.isWhitespace = false :=
    fun c hc => punctChar_not_ws (hall c hc)
  refine ⟨jsTrim_of_no_ws hnws, ?_, ?_⟩
  · unfold stripSlashes
    rw [List.filter_eq_self.mpr (fun c hc => punctChar_not_slash (hall c hc))]
  · unfold splitWs
    cases hd : p.data with
    | nil => exact absurd hd (data_ne_nil_of_ne_empty hne)
    | cons c cs =>
      have hcnw : c.isWhitespace = false := hnws c (by rw [hd]; simp)
      have htw : cs.takeWhile (fun x => ! x.isWhitespace) = cs :=
        List.takeWhile_eq_self_iff.mpr
          (fun x hx => by simp [hnws x (by rw [hd]; simp [hx])])
      have hdw : cs.dropWhile (fun x => ! x.isWhitespace) = [] :=
        List.dropWhile_eq_nil_iff.mpr
          (fun x hx => by simp [hnws x (by rw [hd]; simp [hx])])
      simp only [List.length_cons, splitWsF]
      rw [if_neg (by simp [hcnw]), htw, hdw, splitWsF_nil]
      simp only [List.map_cons, List.map_nil]
      rw [← hd, stringMk_data]

/-
Concrete event streams used to exercise the machine on the claims.
-/

/-- C4 counterexample: on ex4 the importer produces ONE Word holding the
whole trimmed text "there was" at position 1 — not two sequential Words
"there" and "was" as the claim requires (the transChange close handler,
unlike the word-tag handler, never splits on whitespace). -/
theorem c4_counterexample :
    parseOsis ex4 =
      [{ book := "Gen", chapter := some 1, number := some 1, text := "there was",
         words := [{ position := 1, text := "there was", lemmaVal := none, morph := none,
                     strongs := none, metadata := [("type", MValue.str "added")] }],
         colophonWords := none }] := by
  decide

/-- C4 amended: closing a translator-insertion element whose accumulated
text is nonempty after trimming produces exactly ONE Word record holding
the entire trimmed text (internal whitespace preserved, no split into
tokens), consuming one position, with no lemma, morphology or lexical
references; the element's attributes are carried in its metadata, plus the
colophon markers when the element sits inside a colophon. -/
theorem c4_transChange_single_word (st : PState) (attrs : List (String × String))
    (h1 : st.inTransChange = true) (h2 : st.noteDepth = 0)
    (h3 : ¬ jsTrim st.transChangeText = "") :
    (st.inColophon = false → st.current ≠ none →
      stepClose st "transChange" attrs =
        { st with inTransChange := false,
                  words := st.words ++
                    [{ position := st.pos, text := jsTrim st.transChangeText,
                       lemmaVal := none, morph := none, strongs := none,
                       metadata := attrsMeta st.transChangeAttrs }],
                  pos := st.pos + 1 }) ∧
    (st.inColophon = true →
      stepClose st "transChange" attrs =
        { st with inTransChange := false,
                  colophonWords := st.colophonWords ++
                    [{ position := st.colophonPos, text := jsTrim st.transChangeText,
                       lemmaVal := none, morph := none, strongs := none,
                       metadata := addColophonFlags (attrsMeta st.transChangeAttrs) }],
                  colophonPos := st.colophonPos + 1 }) := by
  constructor
  · intro hcol hcur
    unfold stepClose
    rw [if_neg (by decide : ¬ ("transChange" : String) = "div")]
    rw [if_neg (by decide : ¬ ("transChange" : String) = "verse")]
    rw [if_neg (by decide : ¬ ("transChange" : String) = "w")]
    rw [if_pos (rfl : ("transChange" : String) = "transChange")]
    rw [if_pos ⟨h1, Or.inl hcur, h2⟩]
    rw [if_neg (show ¬ tcText st = "" from h3)]
    rw [if_neg (by simp [hcol])]
    rfl
  · intro hcol
    unfold stepClose
    rw [if_neg (by decide : ¬ ("transChange" : String) = "div")]
    rw [if_neg (by decide : ¬ ("transChange" : String) = "verse")]
    rw [if_neg (by decide : ¬ ("transChange" : String) = "w")]
    rw [if_pos (rfl : ("transChange" : String) = "transChange")]
    rw [if_pos ⟨h1, Or.inr hcol, h2⟩]
    rw [if_neg (show ¬ tcText st = "" from h3)]
    rw [if_pos hcol]
    rfl

/-- Witness for C4 amended at the concrete state st4. -/
theorem c4_transChange_single_word_witness :
    stepClose st4 "transChange" [] =
      { st4 with inTransChange := false,
                 words := st4.words ++
                   [{ position := st4.pos, text := jsTrim st4.transChangeText,
                      lemmaVal := none, morph := none, strongs := none,
                      metadata := attrsMeta st4.transChangeAttrs }],
                 pos := st4.pos + 1 } :=
  (c4_transChange_single_word st4 [] (by decide) (by decide) (by decide)).1
    (by decide) (by decide)

/-- C5 counterexample: on ex5 a colophon is active (inColophon is true) and
raw character data arrives outside any word or translator-insertion element,
yet no Word is created anywhere — the colophon word buffer, the verse word
buffer and the recorded colophons all stay empty, refuting the part of the
claim that says tail text inside a colophon contributes Words to the
colophon. -/
theorem c5_counterexample :
    (runEvents ex5).inColophon = true ∧
    (runEvents ex5).colophonWords = [] ∧
    (runEvents ex5).words = [] ∧
    (runEvents ex5).colophons = [] := by
  decide

/-- C5 amended: raw character data outside word and translator-insertion
elements at note depth zero is processed as tail text only while a VERSE is
active, and always into the verse's word sequence: split on whitespace,
punctuation-only tokens appended onto the immediately preceding buffered
word, every other token its own Word with no lexical reference consuming one
position; with no active verse — in particular inside a colophon — the data
is dropped entirely. -/
theorem c5_tail_text (st : PState) (t : String)
    (hn : st.noteDepth = 0) (hw : st.inWord = false) (htc : st.inTransChange = false) :
    (st.current = none → stepText st t = st) ∧
    (st.current ≠ none → ¬ jsTrim t = "" →
      stepText st t =
        { st with
            words := ((splitWs (jsTrim (stripSlashes t))).foldl tailStep (st.words, st.pos)).1,
            pos := ((splitWs (jsTrim (stripSlashes t))).foldl tailStep (st.words, st.pos)).2 }) ∧
    (∀ (ws : List ParsedWord) (n : Nat) (p : String),
      punctOnly p = true → ws ≠ [] →
      tailStep (ws, n) p = (appendToLastText ws p, n)) ∧
    (∀ (ws : List ParsedWord) (n : Nat) (p : String),
      punctOnly p = false →
      tailStep (ws, n) p =
        (ws ++ [{ position := n, text := p, lemmaVal := none, morph := none,
                  strongs := none, metadata := [] }], n + 1)) := by
  refine ⟨?_, ?_, ?_, ?_⟩
  · intro hcur
    unfold stepText
    rw [if_neg (by omega)]
    rw [if_neg (by simp [hw])]
    rw [if_neg (by simp [htc])]
    rw [if_neg (by simp [hcur])]
  · intro hcur htrim
    unfold stepText
    rw [if_neg (by omega)]
    rw [if_neg (by simp [hw])]
    rw [if_neg (by simp [htc])]
    rw [if_pos hcur]
    unfold processTailText
    rw [if_neg (by push_neg; exact ⟨htrim, fun hc => absurd hc hcur, by omega⟩)]
  · intro ws n p hp hws
    unfold tailStep
    rw [if_pos ⟨hp, hws⟩]
  · intro ws n p hp
    unfold tailStep
    rw [if_neg (by simp [hp])]

/-- Witness for C5 amended: a concrete state inside a colophon with no
active verse, where a text event is a no-op. -/
theorem c5_tail_text_witness :
    stepText { initState with inColophon := true, colophonBook := some "Rom" } "Written" =
      { initState with inColophon := true, colophonBook := some "Rom" } :=
  (c5_tail_text { initState with inColophon := true, colophonBook := some "Rom" }
    "Written" (by decide) (by decide) (by decide)).1 (by decide)

/-- C10: a tail-text token made solely of the punctuation characters
`. , ; : ! ?` arriving when the verse has no buffered words becomes its own
Word consuming the next position (it is neither dropped nor attached); and
any token that is not made solely of those characters — quotes and
parentheses included — always becomes its own Word, never re-attached. -/
theorem c10_punct_token_edge :
    (∀ (st : PState) (p : String), st.current ≠ none → st.noteDepth = 0 →
      st.inWord = false → st.inTransChange = false → st.words = [] →
      punctOnly p = true →
      stepText st p =
        { st with words := [{ position := st.pos, text := p, lemmaVal := none,
                              morph := none, strongs := none, metadata := [] }],
                  pos := st.pos + 1 }) ∧
    (∀ (ws : List ParsedWord) (n : Nat) (p : String), punctOnly p = false →
      tailStep (ws, n) p =
        (ws ++ [{ position := n, text := p, lemmaVal := none, morph := none,
                  strongs := none, metadata := [] }], n + 1)) := by
  constructor
  · intro st p hcur hn hw htc hws hp
    obtain ⟨htrim, hslash, hsplit⟩ := punctOnly_facts hp
    have hne : ¬ jsTrim p = "" := by
      rw [htrim]
      exact (punctOnly_parts hp).1
    unfold stepText
    rw [if_neg (by omega)]
    rw [if_neg (by simp [hw])]
    rw [if_neg (by simp [htc])]
    rw [if_pos hcur]
    unfold processTailText
    rw [if_neg (by push_neg; exact ⟨hne, fun hc => absurd hc hcur, by omega⟩)]
    simp only [hslash, htrim, hsplit, hws, List.foldl_cons, List.foldl_nil]
    unfold tailStep
    simp
  · intro ws n p hp
    unfold tailStep
    rw [if_neg (by simp [hp])]

/-- C6 counterexample: the verse of ex6 is persisted with its word's lemma
and morph keys PRESENT and serialized as JSON null (JSON.stringify keeps
null members and only drops undefined ones), refuting the part of the claim
that says optional Word fields are never serialized as null. -/
theorem c6_counterexample :
    parseOsis ex6 = [v6] ∧
    (saveVerse v6).words = [toWordEntry w6] ∧
    getKey (wordEntryJson (toWordEntry w6)) "lemma" = some JValue.jnull ∧
    getKey (wordEntryJson (toWordEntry w6)) "morph" = some JValue.jnull :=
  ⟨by decide, by decide, rfl, rfl⟩

/-- C6 amended: in every persisted verse record, the strongs key (lexical
references) is present exactly when the parsed word's strongs list is
nonempty, the word metadata key (extra attributes) exactly when the parsed
metadata is nonempty, and the verse-level colophon metadata block exactly
when a nonempty colophon was attached; the lemma and morph keys, however,
are always present and hold JSON null when the value is absent. -/
theorem c6_optional_field_omission (w : ParsedWord) (verse : ParsedVerse) :
    (hasKey (wordEntryJson (toWordEntry w)) "strongs" = true ↔
      ∃ l, w.strongs = some l ∧ l ≠ []) ∧
    (hasKey (wordEntryJson (toWordEntry w)) "metadata" = true ↔ w.metadata ≠ []) ∧
    hasKey (wordEntryJson (toWordEntry w)) "lemma" = true ∧
    hasKey (wordEntryJson (toWordEntry w)) "morph" = true ∧
    (w.lemmaVal = none →
      getKey (wordEntryJson (toWordEntry w)) "lemma" = some JValue.jnull) ∧
    (w.morph = none →
      getKey (wordEntryJson (toWordEntry w)) "morph" = some JValue.jnull) ∧
    (hasKey (verseDataJson (saveVerse verse)) "metadata" = true ↔
      ∃ cw, verse.colophonWords = some cw ∧ cw ≠ []) := by
  refine ⟨?_, ?_, ?_, ?_, ?_, ?_, ?_⟩
  · cases hs : w.strongs with
    | none =>
      by_cases hm : w.metadata = [] <;>
        simp [hasKey, wordEntryJson, toWordEntry, hs, hm]
    | some l =>
      by_cases hl : l = [] <;> by_cases hm : w.metadata = [] <;>
        simp [hasKey, wordEntryJson, toWordEntry, hs, hl, hm]
  · cases hs : w.strongs with
    | none =>
      by_cases hm : w.metadata = [] <;>
        simp [hasKey, wordEntryJson, toWordEntry, hs, hm]
    | some l =>
      by_cases hl : l = [] <;> by_cases hm : w.metadata = [] <;>
        simp [hasKey, wordEntryJson, toWordEntry, hs, hl, hm]
  · simp [hasKey, wordEntryJson, toWordEntry]
  · simp [hasKey, wordEntryJson, toWordEntry]
  · intro hl
    cases hs : w.strongs <;>
      simp [getKey, wordEntryJson, toWordEntry, hl, hs, optStrJson]
  · intro hm
    cases hs : w.strongs <;>
      simp [getKey, wordEntryJson, toWordEntry, hm, hs, optStrJson]
  · unfold saveVerse verseDataJson hasKey
    cases hc : verse.colophonWords with
    | none => simp
    | some cw =>
      cases cw with
      | nil => simp
      | cons a t =>
        cases hl : (a :: t).getLast? with
        | none =>
          exact absurd (List.getLast?_eq_none_iff.mp hl) (by simp)
        | some x =>
          simp [hl]

/-- Witness for C6 amended at w6 and v6. -/
theorem c6_optional_field_omission_witness :
    getKey (wordEntryJson (toWordEntry w6)) "lemma" = some JValue.jnull ∧
    getKey (wordEntryJson (toWordEntry w6)) "morph" = some JValue.jnull :=
  ⟨(c6_optional_field_omission w6 v6).2.2.2.2.1 (by decide),
   (c6_optional_field_omission w6 v6).2.2.2.2.2.1 (by decide)⟩

/-
Invariant machinery for the colophon claims: word positions within one
owning unit are contiguous from 1, and colophon words carry the flag.
-/

theorem mget_mput_self (m : List (String × MValue)) (k : String) (v : MValue) :
    mget (mput m k v) k = some v := by
  induction m with
  | nil => simp [mput, mget]
  | cons p t ih =>
    obtain ⟨k', v'⟩ := p
    by_cases hk : k' = k
    · simp [mput, mget, hk]
    · simp [mput, mget, hk, ih]

theorem mget_mput_ne (m : List (String × MValue)) (k k' : String) (v : MValue)
    (h : ¬ k = k') : mget (mput m k v) k' = mget m k' := by
  induction m with
  | nil => simp [mput, mget, h]
  | cons p t ih =>
    obtain ⟨k0, v0⟩ := p
    by_cases hk : k0 = k
    · subst hk
      simp [mput, mget, h]
    · simp [mput, mget, hk, ih]

theorem addColophonFlags_colophon (m : List (String × MValue)) :
    mget (addColophonFlags m) "colophon" = some (MValue.flag true) := by
  unfold addColophonFlags
  rw [mget_mput_ne _ _ _ _ (by decide)]
  exact mget_mput_self m "colophon" (MValue.flag true)

theorem wordFlagged_of_addColophonFlags {w : ParsedWord} {m : List (String × MValue)}
    (h : w.metadata = addColophonFlags m) : wordFlagged w = true := by
  unfold wordFlagged
  rw [h, addColophonFlags_colophon]
  rfl

theorem appendToLastText_map_position : ∀ (ws : List ParsedWord) (p : String),
    (appendToLastText ws p).map ParsedWord.position = ws.map ParsedWord.position ∧
    (appendToLastText ws p).length = ws.length
  | [], _ => ⟨rfl, rfl⟩
  | [_], _ => ⟨rfl, rfl⟩
  | w :: v :: vs, p => by
    have ih := appendToLastText_map_position (v :: vs) p
    simp only [appendToLastText, List.map_cons, List.length_cons] at ih ⊢
    exact ⟨by rw [ih.1], by rw [ih.2]⟩

theorem appendSegToLast_map_position : ∀ (ws : List ParsedWord) (t : String),
    (appendSegToLast ws t).map ParsedWord.position = ws.map ParsedWord.position ∧
    (appendSegToLast ws t).length = ws.length
  | [], _ => ⟨rfl, rfl⟩
  | [_], _ => ⟨rfl, rfl⟩
  | w :: v :: vs, t => by
    have ih := appendSegToLast_map_position (v :: vs) t
    simp only [appendSegToLast, List.map_cons, List.length_cons] at ih ⊢
    exact ⟨by rw [ih.1], by rw [ih.2]⟩

theorem posOK_append_one {ws : List ParsedWord} {n : Nat} (h : PosOK ws n)
    (w : ParsedWord) (hw : w.position = n) : PosOK (ws ++ [w]) (n + 1) := by
  obtain ⟨hmap, hn⟩ := h
  constructor
  · rw [List.map_append, List.length_append]
    simp only [List.map_cons, List.map_nil, List.length_cons, List.length_nil]
    rw [hmap, hw, hn, List.range'_1_concat, Nat.add_comm 1 ws.length]
  · simp only [List.length_append, List.length_cons, List.length_nil]
    omega

theorem tailStep_posOK {ws : List ParsedWord} {n : Nat} {p : String} (h : PosOK ws n) :
    PosOK (tailStep (ws, n) p).1 (tailStep (ws, n) p).2 := by
  unfold tailStep
  split
  · refine ⟨?_, ?_⟩
    · rw [(appendToLastText_map_position ws p).1, (appendToLastText_map_position ws p).2]
      exact h.1
    · rw [(appendToLastText_map_position ws p).2]
      exact h.2
  · exact posOK_append_one h _ rfl

theorem foldl_tailStep_posOK (ps : List String) : ∀ (ws : List ParsedWord) (n : Nat),
    PosOK ws n →
    PosOK ((ps.foldl tailStep (ws, n)).1) ((ps.foldl tailStep (ws, n)).2) := by
  induction ps with
  | nil => intro ws n h; exact h
  | cons p ps ih =>
    intro ws n h
    rw [List.foldl_cons]
    have h' := tailStep_posOK (p := p) h
    have heq : tailStep (ws, n) p = ((tailStep (ws, n) p).1, (tailStep (ws, n) p).2) := rfl
    rw [heq]
    exact ih _ _ h'

theorem mkEntries_map_position (lem mor : Option String) (strongs : Option (List String))
    (meta : List (String × MValue)) : ∀ (ps : List String) (n : Nat),
    (mkEntries lem mor strongs meta n ps).map ParsedWord.position = List.range' n ps.length ∧
    (mkEntries lem mor strongs meta n ps).length = ps.length
  | [], _ => ⟨rfl, rfl⟩
  | p :: ps, n => by
    have ih := mkEntries_map_position lem mor strongs meta ps (n + 1)
    simp only [mkEntries, List.map_cons, List.length_cons]
    refine ⟨?_, by rw [ih.2]⟩
    rw [ih.1, List.range'_succ]

theorem mkEntries_mem_metadata {lem mor : Option String} {strongs : Option (List String)}
    {meta : List (String × MValue)} : ∀ {ps : List String} {n : Nat} {w : ParsedWord},
    w ∈ mkEntries lem mor strongs meta n ps → w.metadata = meta := by
  intro ps
  induction ps with
  | nil => intro n w h; simp [mkEntries] at h
  | cons p ps ih =>
    intro n w h
    simp only [mkEntries, List.mem_cons] at h
    rcases h with rfl | h
    · rfl
    · exact ih h

theorem posOK_append_entries {ws : List ParsedWord} {n : Nat} (h : PosOK ws n)
    (lem mor : Option String) (strongs : Option (List String))
    (meta : List (String × MValue)) (ps : List String) :
    PosOK (ws ++ mkEntries lem mor strongs meta n ps) (n + ps.length) := by
  obtain ⟨hmap, hn⟩ := h
  constructor
  · rw [List.map_append, (mkEntries_map_position lem mor strongs meta ps n).1,
      List.length_append, (mkEntries_map_position lem mor strongs meta ps n).2,
      hmap, hn]
    have hr := List.range'_append_1 1 ws.length ps.length
    rw [Nat.add_comm 1 ws.length, Nat.add_comm ps.length ws.length] at hr
    exact hr
  · simp only [List.length_append,
      (mkEntries_map_position lem mor strongs meta ps n).2]
    omega

theorem renumber_map_position : ∀ (ws : List ParsedWord) (n : Nat),
    (renumber n ws).map ParsedWord.position = List.range' n ws.length ∧
    (renumber n ws).length = ws.length
  | [], _ => ⟨rfl, rfl⟩
  | w :: ws, n => by
    have ih := renumber_map_position ws (n + 1)
    simp only [renumber, List.map_cons, List.length_cons]
    refine ⟨?_, by rw [ih.2]⟩
    rw [ih.1, List.range'_succ]

theorem renumber_mem_metadata : ∀ (ws : List ParsedWord) (n : Nat) (w' : ParsedWord),
    w' ∈ renumber n ws → ∃ w ∈ ws, w'.metadata = w.metadata
  | [], _, w', h => absurd h (by simp [renumber])
  | w :: ws, n, w', h => by
    simp only [renumber, List.mem_cons] at h
    rcases h with rfl | h
    · exact ⟨w, by simp, rfl⟩
    · obtain ⟨w0, hw0, hm⟩ := renumber_mem_metadata ws (n + 1) w' h
      exact ⟨w0, by simp [hw0], hm⟩

theorem renumber_ne_nil {ws : List ParsedWord} {n : Nat} (h : ws ≠ []) :
    renumber n ws ≠ [] := by
  cases ws with
  | nil => exact absurd rfl h
  | cons w ws => simp [renumber]

theorem renumber_head?_position {ws : List ParsedWord} {n : Nat} (h : ws ≠ []) :
    ∃ w, (renumber n ws).head? = some w ∧ w.position = n := by
  cases ws with
  | nil => exact absurd rfl h
  | cons w ws => exact ⟨{ w with position := n }, rfl, rfl⟩

theorem renumber_getLast?_position : ∀ (ws : List ParsedWord) (n : Nat), ws ≠ [] →
    ∃ w, (renumber n ws).getLast? = some w ∧ w.position = n + ws.length - 1
  | [], _, h => absurd rfl h
  | [w], n, _ => ⟨{ w with position := n }, rfl, by simp⟩
  | w :: v :: vs, n, _ => by
    obtain ⟨wl, hl, hp⟩ := renumber_getLast?_position (v :: vs) (n + 1) (by simp)
    refine ⟨wl, ?_, ?_⟩
    · show ({ w with position := n } ::
        ({ v with position := n + 1 } :: renumber (n + 2) vs)).getLast? = some wl
      rw [List.getLast?_cons_cons]
      exact hl
    · simp only [List.length_cons] at hp ⊢
      omega

theorem getLast_position_of_range' {ws : List ParsedWord} {s : Nat}
    (h : ws.map ParsedWord.position = List.range' s ws.length) :
    ∀ wl ∈ ws.getLast?, wl.position = s + ws.length - 1 := by
  intro wl hwl
  have hne : ws ≠ [] := by
    intro he
    subst he
    simp at hwl
  have h1 : (ws.map ParsedWord.position).getLast? =
      (ws.getLast?).map ParsedWord.position := List.getLast?_map _ _
  rw [h, List.getLast?_range'] at h1
  rw [if_neg (by simp [hne])] at h1
  rw [Option.mem_def.mp hwl] at h1
  simp only [Option.map_some'] at h1
  exact ((Option.some.injEq _ _).mp h1).symm

theorem inv_init : Inv initState := by
  constructor
  · intro h
    exact absurd rfl h
  · intro v hv
    simp [initState] at hv
  · intro v hv
    simp [initState] at hv
  · intro w hw
    simp [initState] at hw
  · intro c hc
    simp [initState] at hc

theorem inv_processTailText (st : PState) (t : String) (h : Inv st) :
    Inv (processTailText st t) := by
  unfold processTailText
  split
  · exact h
  · rename_i hguard
    push_neg at hguard
    refine ⟨?_, h.versesPos, h.versesNoCol, h.colWordsFlag, h.colsFlag⟩
    intro _
    exact foldl_tailStep_posOK _ _ _ (h.wordsPos hguard.2.1)

theorem inv_stepText (st : PState) (t : String) (h : Inv st) : Inv (stepText st t) := by
  unfold stepText
  split
  · exact h
  · split
    · exact ⟨h.wordsPos, h.versesPos, h.versesNoCol, h.colWordsFlag, h.colsFlag⟩
    · split
      · exact ⟨h.wordsPos, h.versesPos, h.versesNoCol, h.colWordsFlag, h.colsFlag⟩
      · split
        · exact inv_processTailText st t h
        · exact h

theorem inv_stepOpen (st : PState) (name : String) (attrs : List (String × String))
    (h : Inv st) : Inv (stepOpen st name attrs) := by
  unfold stepOpen
  split
  · split
    · split
      · split
        · refine ⟨h.wordsPos, h.versesPos, h.versesNoCol, ?_, h.colsFlag⟩
          intro w hw
          simp at hw
        · exact h
      · exact h
    · exact h
  · split
    · split
      · split
        · split
          · refine ⟨?_, h.versesPos, h.versesNoCol, h.colWordsFlag, h.colsFlag⟩
            intro _
            exact ⟨rfl, rfl⟩
          · exact h
        · exact h
      · exact h
    · split
      · split
        · exact ⟨h.wordsPos, h.versesPos, h.versesNoCol, h.colWordsFlag, h.colsFlag⟩
        · exact h
      · split
        · split
          · exact ⟨h.wordsPos, h.versesPos, h.versesNoCol, h.colWordsFlag, h.colsFlag⟩
          · exact h
        · split
          · split
            · exact ⟨h.wordsPos, h.versesPos, h.versesNoCol, h.colWordsFlag, h.colsFlag⟩
            · exact h
          · exact h

theorem inv_stepClose (st : PState) (name : String) (attrs : List (String × String))
    (h : Inv st) : Inv (stepClose st name attrs) := by
  unfold stepClose
  split
  · -- div close
    split
    · split
      · rename_i b hguard
        refine ⟨h.wordsPos, h.versesPos, h.versesNoCol, h.colWordsFlag, ?_⟩
        intro c hc
        rcases List.mem_append.mp hc with hc | hc
        · exact h.colsFlag c hc
        · simp only [List.mem_singleton] at hc
          subst hc
          exact ⟨h.colWordsFlag, hguard.2.2⟩
      · exact ⟨h.wordsPos, h.versesPos, h.versesNoCol, h.colWordsFlag, h.colsFlag⟩
    · exact ⟨h.wordsPos, h.versesPos, h.versesNoCol, h.colWordsFlag, h.colsFlag⟩
  · split
    · -- verse close
      cases hcur : st.current with
      | none => exact h
      | some cur =>
        dsimp only
        split
        · have hp := h.wordsPos (by rw [hcur]; simp)
          refine ⟨?_, ?_, ?_, h.colWordsFlag, h.colsFlag⟩
          · intro hc
            exact absurd rfl hc
          · intro v hv
            rcases List.mem_append.mp hv with hv | hv
            · exact h.versesPos v hv
            · simp only [List.mem_singleton] at hv
              subst hv
              exact hp.1
          · intro v hv
            rcases List.mem_append.mp hv with hv | hv
            · exact h.versesNoCol v hv
            · simp only [List.mem_singleton] at hv
              subst hv
              rfl
        · exact h
    · split
      · -- w close
        split
        · rename_i hguard
          split
          · exact ⟨h.wordsPos, h.versesPos, h.versesNoCol, h.colWordsFlag, h.colsFlag⟩
          · split
            · -- in colophon
              refine ⟨h.wordsPos, h.versesPos, h.versesNoCol, ?_, h.colsFlag⟩
              intro w hw
              rcases List.mem_append.mp hw with hw | hw
              · exact h.colWordsFlag w hw
              · exact wordFlagged_of_addColophonFlags (mkEntries_mem_metadata hw)
            · -- in verse
              rename_i hncol
              have hcur : st.current ≠ none := hguard.2.1.resolve_right hncol
              refine ⟨?_, h.versesPos, h.versesNoCol, h.colWordsFlag, h.colsFlag⟩
              intro _
              exact posOK_append_entries (h.wordsPos hcur) _ _ _ _ _
        · exact h
      · split
        · -- transChange close
          split
          · rename_i hguard
            split
            · exact ⟨h.wordsPos, h.versesPos, h.versesNoCol, h.colWordsFlag, h.colsFlag⟩
            · split
              · refine ⟨h.wordsPos, h.versesPos, h.versesNoCol, ?_, h.colsFlag⟩
                intro w hw
                rcases List.mem_append.mp hw with hw | hw
                · exact h.colWordsFlag w hw
                · simp only [List.mem_singleton] at hw
                  subst hw
                  exact wordFlagged_of_addColophonFlags rfl
              · rename_i hncol
                have hcur : st.current ≠ none := hguard.2.1.resolve_right hncol
                refine ⟨?_, h.versesPos, h.versesNoCol, h.colWordsFlag, h.colsFlag⟩
                intro _
                exact posOK_append_one (h.wordsPos hcur) _ rfl
          · exact h
        · split
          · -- note close
            split
            · exact ⟨h.wordsPos, h.versesPos, h.versesNoCol, h.colWordsFlag, h.colsFlag⟩
            · exact h
          · split
            · -- seg close
              split
              · split
                · split
                  · refine ⟨?_, h.versesPos, h.versesNoCol, h.colWordsFlag, h.colsFlag⟩
                    intro hcur
                    have hp := h.wordsPos hcur
                    constructor
                    · rw [(appendSegToLast_map_position st.words _).1,
                        (appendSegToLast_map_position st.words _).2]
                      exact hp.1
                    · rw [(appendSegToLast_map_position st.words _).2]
                      exact hp.2
                  · exact h
                · exact h
              · exact h
            · exact h

theorem inv_step (st : PState) (e : Event) (h : Inv st) : Inv (step st e) := by
  cases e with
  | openTag n a => exact inv_stepOpen st (stripNs n) a h
  | textData t => exact inv_stepText st t h
  | closeTag n a => exact inv_stepClose st (stripNs n) a h

theorem inv_foldl : ∀ (es : List Event) (st : PState), Inv st → Inv (es.foldl step st) := by
  intro es
  induction es with
  | nil => intro st h; exact h
  | cons e es ih =>
    intro st h
    rw [List.foldl_cons]
    exact ih _ (inv_step st e h)

theorem inv_runEvents (es : List Event) : Inv (runEvents es) :=
  inv_foldl es initState inv_init

/-
Post-pass lemmas: attachLast is surgery on the last verse of the colophon's
book, and attachColophons iterates it.
-/

theorem attachLast_book_map (c : ColophonData) : ∀ vs : List ParsedVerse,
    (attachLast c vs).map ParsedVerse.book = vs.map ParsedVerse.book
  | [] => rfl
  | v :: vs => by
    unfold attachLast
    split
    · simp only [List.map_cons, attachLast_book_map c vs]
    · split <;> rfl

theorem attachLast_surgery (c : ColophonData) : ∀ vs : List ParsedVerse,
    (vs.any (fun u => u.book = c.book) = false ∧ attachLast c vs = vs) ∨
    (∃ (l1 : List ParsedVerse) (v : ParsedVerse) (l2 : List ParsedVerse),
      vs = l1 ++ v :: l2 ∧ v.book = c.book ∧
      (∀ u ∈ l2, ¬ u.book = c.book) ∧
      attachLast c vs =
        l1 ++ { v with colophonWords := some (renumber (v.words.length + 1) c.words) } :: l2)
  | [] => Or.inl ⟨rfl, rfl⟩
  | v :: vs => by
    by_cases hany : vs.any (fun u => u.book = c.book) = true
    · have hstep : attachLast c (v :: vs) = v :: attachLast c vs := by
        simp only [attachLast]
        rw [if_pos hany]
      rcases attachLast_surgery c vs with ⟨hfalse, _⟩ | ⟨l1, u, l2, hvs, hub, hl2, heq⟩
      · rw [hany] at hfalse
        cases hfalse
      · right
        refine ⟨v :: l1, u, l2, by rw [hvs]; rfl, hub, hl2, ?_⟩
        rw [hstep, heq]
        rfl
    · have hany' : vs.any (fun u => u.book = c.book) = false := by
        cases he : vs.any (fun u => u.book = c.book)
        · rfl
        · exact absurd he hany
      by_cases hb : v.book = c.book
      · right
        refine ⟨[], v, vs, rfl, hb, ?_, ?_⟩
        · intro u hu hub
          have h2 := (List.any_eq_false.mp hany') u hu
          simp [hub] at h2
        · simp only [attachLast]
          rw [if_neg hany, if_pos hb]
          rfl
      · left
        constructor
        · rw [List.any_cons]
          simp [hb, hany']
        · simp only [attachLast]
          rw [if_neg hany, if_neg hb]

theorem surgery_to_pointwise {c : ColophonData} {vs l1 l2 : List ParsedVerse}
    {v : ParsedVerse} (hvs : vs = l1 ++ v :: l2)
    (hl2 : ∀ u ∈ l2, ¬ u.book = c.book)
    (heq : attachLast c vs =
      l1 ++ { v with colophonWords := some (renumber (v.words.length + 1) c.words) } :: l2) :
    vs[l1.length]? = some v ∧
    (∀ (j : Nat) (u : ParsedVerse), l1.length < j → vs[j]? = some u → ¬ u.book = c.book) ∧
    (attachLast c vs)[l1.length]? =
      some { v with colophonWords := some (renumber (v.words.length + 1) c.words) } ∧
    (∀ i : Nat, i ≠ l1.length → (attachLast c vs)[i]? = vs[i]?) := by
  refine ⟨?_, ?_, ?_, ?_⟩
  · rw [hvs, List.getElem?_append_right (le_refl _)]
    simp
  · intro j u hj hu
    rw [hvs, List.getElem?_append_right (by omega)] at hu
    cases hm : j - l1.length with
    | zero => omega
    | succ m =>
      rw [hm] at hu
      simp only [List.getElem?_cons_succ] at hu
      exact hl2 u (List.getElem?_mem hu)
  · rw [heq, List.getElem?_append_right (le_refl _)]
    simp
  · intro i hi
    rw [heq, hvs]
    by_cases hlt : i < l1.length
    · rw [List.getElem?_append_left hlt, List.getElem?_append_left hlt]
    · rw [List.getElem?_append_right (by omega), List.getElem?_append_right (by omega)]
      cases hm : i - l1.length with
      | zero => omega
      | succ m => simp only [List.getElem?_cons_succ]

theorem attachLast_cases (c : ColophonData) (vs : List ParsedVerse) :
    attachLast c vs = vs ∨
    ∃ (k : Nat) (v : ParsedVerse), vs[k]? = some v ∧ v.book = c.book ∧
      (∀ (j : Nat) (u : ParsedVerse), k < j → vs[j]? = some u → ¬ u.book = c.book) ∧
      (attachLast c vs)[k]? =
        some { v with colophonWords := some (renumber (v.words.length + 1) c.words) } ∧
      (∀ i : Nat, i ≠ k → (attachLast c vs)[i]? = vs[i]?) := by
  rcases attachLast_surgery c vs with ⟨_, heq⟩ | ⟨l1, v, l2, hvs, hb, hl2, heq⟩
  · exact Or.inl heq
  · obtain ⟨h1, h2, h3, h4⟩ := surgery_to_pointwise hvs hl2 heq
    exact Or.inr ⟨l1.length, v, h1, hb, h2, h3, h4⟩

theorem attachLast_attaches (c : ColophonData) (vs : List ParsedVerse)
    (hex : ∃ u ∈ vs, u.book = c.book) :
    ∃ (k : Nat) (v : ParsedVerse), vs[k]? = some v ∧ v.book = c.book ∧
      (∀ (j : Nat) (u : ParsedVerse), k < j → vs[j]? = some u → ¬ u.book = c.book) ∧
      (attachLast c vs)[k]? =
        some { v with colophonWords := some (renumber (v.words.length + 1) c.words) } ∧
      (∀ i : Nat, i ≠ k → (attachLast c vs)[i]? = vs[i]?) := by
  rcases attachLast_surgery c vs with ⟨hfalse, _⟩ | ⟨l1, v, l2, hvs, hb, hl2, heq⟩
  · obtain ⟨u, hu, hub⟩ := hex
    have h2 := (List.any_eq_false.mp hfalse) u hu
    simp [hub] at h2
  · obtain ⟨h1, h2, h3, h4⟩ := surgery_to_pointwise hvs hl2 heq
    exact ⟨l1.length, v, h1, hb, h2, h3, h4⟩

theorem attachLast_posProp (c : ColophonData) : ∀ vs : List ParsedVerse,
    PosProp vs → PosProp (attachLast c vs)
  | [], h => h
  | v :: vs, h => by
    unfold attachLast
    split
    · intro u hu
      rcases List.mem_cons.mp hu with rfl | hu
      · exact h u (by simp)
      · exact attachLast_posProp c vs (fun x hx => h x (by simp [hx])) u hu
    · split
      · intro u hu
        rcases List.mem_cons.mp hu with rfl | hu
        · exact h v (by simp)
        · exact h u (by simp [hu])
      · exact h

theorem attachOK_of_noCol {cols : List ColophonData} {l : List ParsedVerse}
    (h : ∀ v ∈ l, v.colophonWords = none) : AttachOK cols l := by
  intro i v cw hi hcw
  rw [h v (List.getElem?_mem hi)] at hcw
  cases hcw

theorem attachLast_attachOK {cols : List ColophonData} {c : ColophonData}
    {vs : List ParsedVerse} (hc : c ∈ cols) (hA : AttachOK cols vs) :
    AttachOK cols (attachLast c vs) := by
  rcases attachLast_cases c vs with heq | ⟨k, v, hk, hb, hlater, hknew, hother⟩
  · rw [heq]
    exact hA
  · intro i u cw hi hcw
    by_cases hik : i = k
    · subst hik
      rw [hknew] at hi
      have hu :
          u = { v with colophonWords := some (renumber (v.words.length + 1) c.words) } :=
        ((Option.some.injEq _ _).mp hi).symm
      subst hu
      constructor
      · intro j u' hj hu'
        rw [hother j (by omega)] at hu'
        have hne := hlater j u' hj hu'
        exact fun hh => hne (hb ▸ hh)
      · have hcweq : cw = renumber (v.words.length + 1) c.words :=
          ((Option.some.injEq _ _).mp hcw).symm
        exact ⟨c, hc, by rw [hcweq]⟩
    · rw [hother i hik] at hi
      obtain ⟨hlater', hex⟩ := hA i u cw hi hcw
      refine ⟨?_, hex⟩
      intro j u' hj hu'
      by_cases hjk : j = k
      · subst hjk
        rw [hknew] at hu'
        have hu'eq :
            u' = { v with colophonWords := some (renumber (v.words.length + 1) c.words) } :=
          ((Option.some.injEq _ _).mp hu').symm
        subst hu'eq
        exact hlater' j v hj hk
      · rw [hother j hjk] at hu'
        exact hlater' j u' hj hu'

theorem attachColophons_posProp : ∀ (cs : List ColophonData) (vs : List ParsedVerse),
    PosProp vs → PosProp (attachColophons vs cs) := by
  intro cs
  induction cs with
  | nil => intro vs h; exact h
  | cons c cs ih =>
    intro vs h
    show PosProp (attachColophons (attachLast c vs) cs)
    exact ih _ (attachLast_posProp c vs h)

theorem attachColophons_attachOK {cols : List ColophonData} :
    ∀ (cs : List ColophonData) (vs : List ParsedVerse),
    (∀ c ∈ cs, c ∈ cols) → AttachOK cols vs → AttachOK cols (attachColophons vs cs) := by
  intro cs
  induction cs with
  | nil => intro vs _ h; exact h
  | cons c cs ih =>
    intro vs hsub h
    show AttachOK cols (attachColophons (attachLast c vs) cs)
    exact ih _ (fun c' hc' => hsub c' (by simp [hc']))
      (attachLast_attachOK (hsub c (by simp)) h)

theorem attachColophons_book_map : ∀ (cs : List ColophonData) (vs : List ParsedVerse),
    (attachColophons vs cs).map ParsedVerse.book = vs.map ParsedVerse.book := by
  intro cs
  induction cs with
  | nil => intro vs; rfl
  | cons c cs ih =>
    intro vs
    show (attachColophons (attachLast c vs) cs).map ParsedVerse.book = _
    rw [ih, attachLast_book_map]

theorem book_at_of_book_map {l l' : List ParsedVerse}
    (h : l.map ParsedVerse.book = l'.map ParsedVerse.book) (i : Nat) :
    (l[i]?).map ParsedVerse.book = (l'[i]?).map ParsedVerse.book := by
  rw [← List.getElem?_map, ← List.getElem?_map, h]

theorem attachLast_preserve_nonbook {c : ColophonData} {vs : List ParsedVerse}
    {i : Nat} {v : ParsedVerse} (hv : vs[i]? = some v) (hb : ¬ v.book = c.book) :
    (attachLast c vs)[i]? = some v := by
  rcases attachLast_cases c vs with heq | ⟨k, u, hk, hub, _, hknew, hother⟩
  · rw [heq]
    exact hv
  · by_cases hik : i = k
    · subst hik
      rw [hk] at hv
      have : u = v := (Option.some.injEq _ _).mp hv
      subst this
      exact absurd hub hb
    · rw [hother i hik]
      exact hv

theorem attachColophons_preserve_nonbook {b : String} :
    ∀ (cs : List ColophonData), (∀ c' ∈ cs, ¬ c'.book = b) →
    ∀ (vs : List ParsedVerse) (i : Nat) (v : ParsedVerse),
    vs[i]? = some v → v.book = b → (attachColophons vs cs)[i]? = some v := by
  intro cs
  induction cs with
  | nil => intro _ vs i v hv _; exact hv
  | cons c cs ih =>
    intro hno vs i v hv hvb
    show (attachColophons (attachLast c vs) cs)[i]? = some v
    refine ih (fun c' hc' => hno c' (by simp [hc'])) _ i v ?_ hvb
    refine attachLast_preserve_nonbook hv ?_
    intro hh
    exact hno c (by simp) (by rw [← hh, hvb])

theorem attachColophons_attaches (cols : List ColophonData) (i : Nat)
    (c : ColophonData) (vs : List ParsedVerse)
    (hlen : i < cols.length) (hci : cols[i] = c)
    (hlater : ∀ (j : Nat) (c' : ColophonData), i < j → cols[j]? = some c' → ¬ c'.book = c.book)
    (hex : ∃ u ∈ vs, u.book = c.book) :
    ∃ (k : Nat) (v : ParsedVerse),
      (attachColophons vs cols)[k]? = some v ∧ v.book = c.book ∧
      v.colophonWords = some (renumber (v.words.length + 1) c.words) ∧
      (∀ (j : Nat) (u : ParsedVerse), k < j →
        (attachColophons vs cols)[j]? = some u → ¬ u.book = c.book) := by
  have hdecomp : cols = cols.take i ++ c :: cols.drop (i + 1) := by
    conv_lhs => rw [← List.take_append_drop i cols]
    rw [List.drop_eq_getElem_cons hlen, hci]
  have hsplit : attachColophons vs cols =
      attachColophons (attachLast c (attachColophons vs (cols.take i)))
        (cols.drop (i + 1)) := by
    conv_lhs => rw [hdecomp]
    unfold attachColophons
    rw [List.foldl_append, List.foldl_cons]
  have hbooks1 : (attachColophons vs (cols.take i)).map ParsedVerse.book =
      vs.map ParsedVerse.book := attachColophons_book_map _ _
  have hex1 : ∃ u ∈ attachColophons vs (cols.take i), u.book = c.book := by
    obtain ⟨u, hu, hub⟩ := hex
    have hm : c.book ∈ (attachColophons vs (cols.take i)).map ParsedVerse.book := by
      rw [hbooks1]
      exact List.mem_map.mpr ⟨u, hu, hub⟩
    obtain ⟨u', hu', hub'⟩ := List.mem_map.mp hm
    exact ⟨u', hu', hub'⟩
  obtain ⟨k, v, hk, hvb, hlater1, hknew, hother⟩ :=
    attachLast_attaches c (attachColophons vs (cols.take i)) hex1
  have hdrop : ∀ c' ∈ cols.drop (i + 1), ¬ c'.book = c.book := by
    intro c' hc'
    obtain ⟨m, hmlt, hm⟩ := List.mem_iff_getElem.mp hc'
    have : cols[i + 1 + m]? = some c' := by
      rw [← List.getElem?_drop]
      rw [List.getElem?_eq_getElem hmlt, hm]
    exact hlater (i + 1 + m) c' (by omega) this
  have hfinalk : (attachColophons (attachLast c (attachColophons vs (cols.take i)))
      (cols.drop (i + 1)))[k]? =
      some { v with colophonWords := some (renumber (v.words.length + 1) c.words) } := by
    refine attachColophons_preserve_nonbook _ hdrop _ k _ hknew ?_
    exact hvb
  refine ⟨k, { v with colophonWords := some (renumber (v.words.length + 1) c.words) },
    by rw [hsplit]; exact hfinalk, hvb, rfl, ?_⟩
  intro j u hj hu
  rw [hsplit] at hu
  have hbooks2 : ((attachColophons (attachLast c (attachColophons vs (cols.take i)))
      (cols.drop (i + 1)))[j]?).map ParsedVerse.book =
      ((attachLast c (attachColophons vs (cols.take i)))[j]?).map ParsedVerse.book :=
    book_at_of_book_map (attachColophons_book_map _ _) j
  rw [hu] at hbooks2
  rw [hother j (by omega)] at hbooks2
  cases hvj : (attachColophons vs (cols.take i))[j]? with
  | none =>
    rw [hvj] at hbooks2
    cases hbooks2
  | some u' =>
    rw [hvj] at hbooks2
    simp only [Option.map_some'] at hbooks2
    have hub' := hlater1 j u' hj hvj
    have : u.book = u'.book := (Option.some.injEq _ _).mp hbooks2
    rw [this]
    exact hub'

theorem parseOsis_posProp (es : List Event) : PosProp (parseOsis es) :=
  attachColophons_posProp _ _ (inv_runEvents es).versesPos

theorem parseOsis_attachOK (es : List Event) :
    AttachOK (runEvents es).colophons (parseOsis es) :=
  attachColophons_attachOK _ _ (fun _ hc => hc)
    (attachOK_of_noCol (inv_runEvents es).versesNoCol)

theorem saveVerse_words_eq (verse : ParsedVerse) :
    (saveVerse verse).words = verse.words.map toWordEntry ++
      (match verse.colophonWords with
       | some cw => cw.map toWordEntry
       | none => []) := rfl

theorem saveVerse_gematria_eq (verse : ParsedVerse) :
    (saveVerse verse).gematria = (saveVerse verse).words.foldl addTotals [] := rfl

theorem saveVerse_metadata_eq (verse : ParsedVerse) :
    (saveVerse verse).metadata =
      match verse.colophonWords with
      | some cw =>
        match cw.head?, cw.getLast? with
        | some first, some last =>
          some { has_colophon := true
                 colophon_word_range := (first.position, last.position)
                 colophon_type := "subscription" }
        | _, _ => none
      | none => none := rfl

/-- Every attached colophon word carries the colophon flag (it originates
from a recorded colophon, whose words all carry it, and renumbering keeps
metadata). -/
theorem parseOsis_colophonWords_flagged (es : List Event) {i : Nat} {v : ParsedVerse}
    {cw : List ParsedWord} (hv : (parseOsis es)[i]? = some v)
    (hcw : v.colophonWords = some cw) : ∀ w ∈ cw, wordFlagged w = true := by
  obtain ⟨_, c, hcmem, hcweq⟩ := parseOsis_attachOK es i v cw hv hcw
  obtain ⟨hflags, _⟩ := (inv_runEvents es).colsFlag c hcmem
  intro w hw
  rw [hcweq] at hw
  obtain ⟨w0, hw0, hmeta⟩ := renumber_mem_metadata c.words _ w hw
  unfold wordFlagged
  rw [hmeta]
  exact hflags w0 hw0

/-
Totals lemmas for the verse-level gematria record.
-/

theorem lookupD_nil (k : String) : lookupD [] k = 0 := rfl

theorem lookupD_cons (p : String × Nat) (t : List (String × Nat)) (k : String) :
    lookupD (p :: t) k = if p.1 = k then p.2 else lookupD t k := by
  obtain ⟨k0, v0⟩ := p
  by_cases h : k0 = k
  · simp [lookupD, List.find?, h]
  · have hd : (decide (k0 = k)) = false := by simp [h]
    simp [lookupD, List.find?, hd, h]

theorem lookupD_bump (l : List (String × Nat)) (k k' : String) (v : Nat) :
    lookupD (bump l k v) k' = lookupD l k' + (if k = k' then v else 0) := by
  induction l with
  | nil =>
    by_cases h : k = k' <;> simp [bump, lookupD_cons, lookupD_nil, h]
  | cons p t ih =>
    obtain ⟨k0, v0⟩ := p
    by_cases h0 : k0 = k
    · subst h0
      have hb : bump ((k0, v0) :: t) k0 v = (k0, v0 + v) :: t := by
        simp [bump]
      rw [hb, lookupD_cons, lookupD_cons]
      by_cases h1 : k0 = k' <;> simp [h1] <;> omega
    · simp only [bump, if_neg h0]
      rw [lookupD_cons, lookupD_cons, ih]
      by_cases h1 : k0 = k'
      · have h2 : ¬ k = k' := fun hh => h0 (h1.trans hh.symm)
        simp [h1, h2]
      · simp [h1]

theorem addTotals_lookupD (acc : List (String × Nat)) (e : WordEntry) (k : String) :
    lookupD (addTotals acc e) k = lookupD acc k +
      (if entryFlagged e then 0 else
        (if "standard" = k then e.gematria.standard else 0) +
        (if "ordinal" = k then e.gematria.ordinal else 0) +
        (if "reduced" = k then e.gematria.reduced else 0)) := by
  unfold addTotals
  split
  · omega
  · simp only [gemEntries, List.foldl_cons, List.foldl_nil]
    rw [lookupD_bump, lookupD_bump, lookupD_bump]
    omega

theorem foldl_addTotals_standard : ∀ (entries : List WordEntry) (acc : List (String × Nat)),
    lookupD (entries.foldl addTotals acc) "standard" =
      lookupD acc "standard" +
        ((entries.filter (fun e => ! entryFlagged e)).map
          (fun e => e.gematria.standard)).sum := by
  intro entries
  induction entries with
  | nil => intro acc; simp
  | cons e es ih =>
    intro acc
    rw [List.foldl_cons, ih, addTotals_lookupD]
    by_cases hf : entryFlagged e = true <;>
      simp [hf, List.filter_cons] <;> omega

theorem foldl_addTotals_ordinal : ∀ (entries : List WordEntry) (acc : List (String × Nat)),
    lookupD (entries.foldl addTotals acc) "ordinal" =
      lookupD acc "ordinal" +
        ((entries.filter (fun e => ! entryFlagged e)).map
          (fun e => e.gematria.ordinal)).sum := by
  intro entries
  induction entries with
  | nil => intro acc; simp
  | cons e es ih =>
    intro acc
    rw [List.foldl_cons, ih, addTotals_lookupD]
    by_cases hf : entryFlagged e = true <;>
      simp [hf, List.filter_cons] <;> omega

theorem foldl_addTotals_reduced : ∀ (entries : List WordEntry) (acc : List (String × Nat)),
    lookupD (entries.foldl addTotals acc) "reduced" =
      lookupD acc "reduced" +
        ((entries.filter (fun e => ! entryFlagged e)).map
          (fun e => e.gematria.reduced)).sum := by
  intro entries
  induction entries with
  | nil => intro acc; simp
  | cons e es ih =>
    intro acc
    rw [List.foldl_cons, ih, addTotals_lookupD]
    by_cases hf : entryFlagged e = true <;>
      simp [hf, List.filter_cons] <;> omega

theorem foldl_addTotals_flagged : ∀ (entries : List WordEntry),
    (∀ e ∈ entries, entryFlagged e = true) →
    ∀ acc : List (String × Nat), entries.foldl addTotals acc = acc := by
  intro entries
  induction entries with
  | nil => intro _ acc; rfl
  | cons e es ih =>
    intro hall acc
    rw [List.foldl_cons,
      show addTotals acc e = acc from by unfold addTotals; rw [if_pos (hall e (by simp))]]
    exact ih (fun x hx => hall x (by simp [hx])) acc

theorem entryFlagged_toWordEntry (w : ParsedWord) :
    entryFlagged (toWordEntry w) = wordFlagged w := by
  unfold entryFlagged toWordEntry wordFlagged
  by_cases hm : w.metadata = []
  · simp only [hm]
    simp [mget, truthyM]
  · simp [hm]

/-- C1: the verse-level gematria totals (standard, ordinal, reduced) are the
element-wise sums of the per-word gematria over exactly the stored words NOT
flagged as colophon; consequently, for every verse produced by the parser,
attaching its colophon does not change the reported totals relative to the
same verse without the colophon. -/
theorem c1_gematria_totals :
    (∀ verse : ParsedVerse,
      lookupD (saveVerse verse).gematria "standard" =
        (((saveVerse verse).words.filter (fun e => ! entryFlagged e)).map
          (fun e => e.gematria.standard)).sum ∧
      lookupD (saveVerse verse).gematria "ordinal" =
        (((saveVerse verse).words.filter (fun e => ! entryFlagged e)).map
          (fun e => e.gematria.ordinal)).sum ∧
      lookupD (saveVerse verse).gematria "reduced" =
        (((saveVerse verse).words.filter (fun e => ! entryFlagged e)).map
          (fun e => e.gematria.reduced)).sum) ∧
    (∀ (es : List Event) (v : ParsedVerse), v ∈ parseOsis es →
      (saveVerse { v with colophonWords := none }).gematria = (saveVerse v).gematria) := by
  constructor
  · intro verse
    refine ⟨?_, ?_, ?_⟩
    · rw [saveVerse_gematria_eq, foldl_addTotals_standard, lookupD_nil]
      omega
    · rw [saveVerse_gematria_eq, foldl_addTotals_ordinal, lookupD_nil]
      omega
    · rw [saveVerse_gematria_eq, foldl_addTotals_reduced, lookupD_nil]
      omega
  · intro es v hv
    cases hcw : v.colophonWords with
    | none =>
      have hveq : { v with colophonWords := none } = v := by
        cases v
        simp only at hcw
        rw [hcw]
      rw [hveq]
    | some cw =>
      obtain ⟨i, hlt, hval⟩ := List.mem_iff_getElem.mp hv
      have hv' : (parseOsis es)[i]? = some v := by
        rw [List.getElem?_eq_getElem hlt, hval]
      have hflags := parseOsis_colophonWords_flagged es hv' hcw
      have hallflag : ∀ e ∈ cw.map toWordEntry, entryFlagged e = true := by
        intro e he
        obtain ⟨w, hw, rfl⟩ := List.mem_map.mp he
        rw [entryFlagged_toWordEntry]
        exact hflags w hw
      have hA : (saveVerse v).gematria =
          (v.words.map toWordEntry ++ cw.map toWordEntry).foldl addTotals [] := by
        rw [saveVerse_gematria_eq, saveVerse_words_eq]
        rw [hcw]
      have hB : (saveVerse { v with colophonWords := none }).gematria =
          (v.words.map toWordEntry ++ ([] : List WordEntry)).foldl addTotals [] := by
        rw [saveVerse_gematria_eq, saveVerse_words_eq]
      rw [hA, hB, List.append_nil, List.foldl_append,
        foldl_addTotals_flagged (cw.map toWordEntry) hallflag]

/-- Witness for C1 at the concrete run exC (the verse vC is produced by the
parser and carries an attached colophon). -/
theorem c1_gematria_totals_witness :
    lookupD (saveVerse vC).gematria "standard" =
      (((saveVerse vC).words.filter (fun e => ! entryFlagged e)).map
        (fun e => e.gematria.standard)).sum ∧
    (saveVerse { vC with colophonWords := none }).gematria = (saveVerse vC).gematria :=
  ⟨(c1_gematria_totals.1 vC).1,
   c1_gematria_totals.2 exC vC (by decide)⟩

/-- C3: every verse of the parse result carrying attached colophon words got
them renumbered to start immediately after its last body-word position and
continue contiguously; it is the chronologically last parsed verse of its
book; the persisted record appends the colophon words after the body words
and its colophon_word_range is [first, last] of the rewritten positions.
Conversely every recorded nonempty colophon (the last recorded one for its
book) whose book has parsed verses gets attached exactly so. -/
theorem c3_colophon_attachment (es : List Event) :
    (∀ (i : Nat) (v : ParsedVerse) (cw : List ParsedWord),
      (parseOsis es)[i]? = some v → v.colophonWords = some cw →
      cw ≠ [] ∧
      cw.map ParsedWord.position = List.range' (v.words.length + 1) cw.length ∧
      (∀ wl ∈ v.words.getLast?, ∀ wf ∈ cw.head?, wf.position = wl.position + 1) ∧
      (∀ (j : Nat) (u : ParsedVerse), i < j → (parseOsis es)[j]? = some u →
        ¬ u.book = v.book) ∧
      (saveVerse v).metadata =
        some { has_colophon := true
               colophon_word_range := (v.words.length + 1, v.words.length + cw.length)
               colophon_type := "subscription" } ∧
      (saveVerse v).words = v.words.map toWordEntry ++ cw.map toWordEntry) ∧
    (∀ (i : Nat) (c : ColophonData),
      (runEvents es).colophons[i]? = some c →
      (∀ (j : Nat) (c' : ColophonData), i < j → (runEvents es).colophons[j]? = some c' →
        ¬ c'.book = c.book) →
      (∃ u ∈ (runEvents es).verses, u.book = c.book) →
      ∃ (k : Nat) (v : ParsedVerse), (parseOsis es)[k]? = some v ∧ v.book = c.book ∧
        v.colophonWords = some (renumber (v.words.length + 1) c.words) ∧
        (∀ (j : Nat) (u : ParsedVerse), k < j → (parseOsis es)[j]? = some u →
          ¬ u.book = c.book)) := by
  constructor
  · intro i v cw hv hcw
    obtain ⟨hlater, c, hcmem, hcweq⟩ := parseOsis_attachOK es i v cw hv hcw
    obtain ⟨hflags, hcne⟩ := (inv_runEvents es).colsFlag c hcmem
    have hcwne : cw ≠ [] := by
      rw [hcweq]
      exact renumber_ne_nil hcne
    have hmap := (renumber_map_position c.words (v.words.length + 1)).1
    have hlen := (renumber_map_position c.words (v.words.length + 1)).2
    have hcwlen : cw.length = c.words.length := by
      rw [hcweq, hlen]
    obtain ⟨wf0, hf0, hf0pos⟩ := renumber_head?_position (n := v.words.length + 1) hcne
    obtain ⟨wl0, hl0, hl0pos⟩ :=
      renumber_getLast?_position c.words (v.words.length + 1) hcne
    refine ⟨hcwne, ?_, ?_, hlater, ?_, ?_⟩
    · rw [hcweq, hmap, hlen]
    · intro wl hwl wf hwf
      have hposv := parseOsis_posProp es v (List.getElem?_mem hv)
      have hwlpos := getLast_position_of_range' hposv wl hwl
      have hvne : v.words ≠ [] := by
        intro he
        rw [he] at hwl
        simp at hwl
      have hv1 : 1 ≤ v.words.length := List.length_pos.mpr hvne
      have hwfeq : wf = wf0 := by
        have h1 := Option.mem_def.mp hwf
        rw [hcweq, hf0] at h1
        exact ((Option.some.injEq _ _).mp h1).symm
      rw [hwfeq, hf0pos, hwlpos]
      omega
    · have hc1 : 1 ≤ c.words.length := List.length_pos.mpr hcne
      have hl0pos' : wl0.position = v.words.length + cw.length := by
        rw [hl0pos, hcwlen]
        omega
      simp only [saveVerse_metadata_eq, hcw, hcweq, hf0, hl0]
      rw [hf0pos, hl0pos', hcwlen, hlen]
    · rw [saveVerse_words_eq, hcw]
  · intro i c hci hlater hex
    have hlen : i < (runEvents es).colophons.length := by
      by_contra hcon
      rw [List.getElem?_eq_none (by omega)] at hci
      cases hci
    have hcival : (runEvents es).colophons[i] = c := by
      have h2 := List.getElem?_eq_getElem hlen
      rw [h2] at hci
      exact (Option.some.injEq _ _).mp hci
    exact attachColophons_attaches _ i c _ hlen hcival hlater hex

/-- Witness for C3 at the concrete run exC, instantiated at the single verse
vC with its attached colophon cwC. -/
theorem c3_colophon_attachment_witness :
    cwC ≠ [] ∧
    cwC.map ParsedWord.position = List.range' (vC.words.length + 1) cwC.length ∧
    (∀ wl ∈ vC.words.getLast?, ∀ wf ∈ cwC.head?, wf.position = wl.position + 1) ∧
    (∀ (j : Nat) (u : ParsedVerse), 0 < j → (parseOsis exC)[j]? = some u →
      ¬ u.book = vC.book) ∧
    (saveVerse vC).metadata =
      some { has_colophon := true
             colophon_word_range := (vC.words.length + 1, vC.words.length + cwC.length)
             colophon_type := "subscription" } ∧
    (saveVerse vC).words = vC.words.map toWordEntry ++ cwC.map toWordEntry :=
  (c3_colophon_attachment exC).1 0 vC cwC (by decide) (by decide)

/-- Witness for C10 at a concrete verse state and the tokens "." and "(". -/
theorem c10_punct_token_edge_witness :
    stepText { initState with current := some ("Gen", some 1, some 1) } "." =
      { initState with current := some ("Gen", some 1, some 1),
                       words := [{ position := 1, text := ".", lemmaVal := none,
                                   morph := none, strongs := none, metadata := [] }],
                       pos := 2 } ∧
    tailStep ([{ position := 1, text := "In", lemmaVal := none, morph := none,
                 strongs := none, metadata := [] }], 2) "(" =
      ([{ position := 1, text := "In", lemmaVal := none, morph := none,
          strongs := none, metadata := [] },
        { position := 2, text := "(", lemmaVal := none, morph := none,
          strongs := none, metadata := [] }], 3) :=
  ⟨by
    have := c10_punct_token_edge.1
      { initState with current := some ("Gen", some 1, some 1) } "."
      (by decide) (by decide) (by decide) (by decide) (by decide) (by decide)
    simpa using this,
   c10_punct_token_edge.2 _ 2 "(" (by decide)⟩

end KJV
